import Mathlib

/-!
Verification of the transcript-normalizer of this repository.

Text is modelled as `List Char` (Python strings are sequences of code
points).  Each definition below is a direct shallow embedding of a Python
function of the repository:

* `clean_repeated_lines`, and its timestamp-tag matcher `tagSplit` /
  `extract_content`, embed `clean_repeated_lines` of
  `batch_transcribe_all_videos.py` (the regex
  `\[\d+:\d+\.\d+ --> .*?\]\s*(.*)` is compiled to a deterministic
  matcher: every `\d+` is followed by a non-digit, so greedy matching with
  backtracking coincides with maximal munch, and `.*?\]` takes the first
  `]` with no newline before it).
* `isDuplicateLine` embeds `YouTubeTranscriber._is_duplicate_line` of
  `youtube_transcribe.py`; the float threshold is modelled in `ℚ`.
* `cleanSubtitleMarkers` embeds `_clean_subtitle_markers`, with the
  boilerplate regexes compiled to matchers over a small element language
  (`PElem`) and `re.sub` modelled by `reSub`.
* `removeConsecutiveDuplicates` embeds `_remove_consecutive_duplicates`,
  `collapseNl3` embeds `re.sub(r'\n{3,}', '\n\n', ·)`, and `savePipeline`
  embeds the text post-processing of `save_transcript`.

Unicode character classes (`str.isspace`, `str.isalnum`, `\d`, `\s`) are
modelled over the character repertoire this repository operates on
(ASCII plus CJK ranges); `re.IGNORECASE` is modelled by ASCII case
folding, which is exact for the ASCII-only case-insensitive patterns in
the source.
-/

/-- Python `str.isspace` / regex `\s` for the characters relevant here:
ASCII whitespace and the common Unicode space characters. -/
def pySpace (c : Char) : Bool :=
  (0x09 ≤ c.toNat && c.toNat ≤ 0x0d) || c = ' ' ||
  (0x1c ≤ c.toNat && c.toNat ≤ 0x1f) || c.toNat = 0x85 || c.toNat = 0xa0 ||
  c.toNat = 0x1680 || (0x2000 ≤ c.toNat && c.toNat ≤ 0x200a) ||
  c.toNat = 0x2028 || c.toNat = 0x2029 || c.toNat = 0x202f ||
  c.toNat = 0x205f || c.toNat = 0x3000

/-- Python `str.isalnum`, restricted to the character ranges appearing in
this repository's data: ASCII alphanumerics, CJK unified ideographs
(with extension A), kana, and fullwidth forms. -/
def pyIsAlnum (c : Char) : Bool :=
  c.isDigit || c.isAlpha ||
  (0x4e00 ≤ c.toNat && c.toNat ≤ 0x9fff) ||
  (0x3400 ≤ c.toNat && c.toNat ≤ 0x4dbf) ||
  (0x3040 ≤ c.toNat && c.toNat ≤ 0x30ff) ||
  (0xff10 ≤ c.toNat && c.toNat ≤ 0xff19) ||
  (0xff21 ≤ c.toNat && c.toNat ≤ 0xff3a) ||
  (0xff41 ≤ c.toNat && c.toNat ≤ 0xff5a)

/-- Python `str.strip()`: remove leading and trailing whitespace. -/
def pyStrip (l : List Char) : List Char :=
  (l.dropWhile pySpace).rdropWhile pySpace

theorem pyStrip_nil : pyStrip [] = [] := rfl

theorem pyStrip_dropWhile (l : List Char) :
    pyStrip (l.dropWhile pySpace) = pyStrip l := by
  simp [pyStrip, List.dropWhile_idempotent]

theorem head_dW_not (p : Char → Bool) (l : List Char) :
    ∀ a ∈ (l.dropWhile p).head?, ¬ p a := by
  induction l with
  | nil => simp
  | cons c cs ih =>
    rw [List.dropWhile_cons]
    by_cases h : p c
    · simpa [h] using ih
    · simp [h]

theorem dropWhile_pyStrip (l : List Char) :
    (pyStrip l).dropWhile pySpace = pyStrip l := by
  unfold pyStrip
  cases h : (l.dropWhile pySpace).rdropWhile pySpace with
  | nil => rfl
  | cons a t =>
    obtain ⟨s, hs⟩ := List.rdropWhile_prefix pySpace (l.dropWhile pySpace)
    rw [h] at hs
    have ha : ¬ pySpace a := head_dW_not pySpace l a (by rw [← hs]; rfl)
    rw [List.dropWhile_cons, if_neg ha]

theorem pyStrip_idem (l : List Char) : pyStrip (pyStrip l) = pyStrip l := by
  conv_lhs => rw [pyStrip, dropWhile_pyStrip]
  rw [pyStrip, List.rdropWhile_idempotent]

/-- `pyStrip l` is a contiguous segment of `l`. -/
theorem pyStrip_infix (l : List Char) : ∃ u v, l = u ++ pyStrip l ++ v := by
  obtain ⟨t, ht⟩ := List.rdropWhile_prefix pySpace (l.dropWhile pySpace)
  refine ⟨l.takeWhile pySpace, t, ?_⟩
  simp only [pyStrip]
  rw [List.append_assoc, ht, List.takeWhile_append_dropWhile]

theorem pyStrip_sublist (l : List Char) : List.Sublist (pyStrip l) l := by
  obtain ⟨u, v, h⟩ := pyStrip_infix l
  have hs : List.Sublist (pyStrip l) (u ++ pyStrip l ++ v) := by
    rw [List.append_assoc]
    exact (List.sublist_append_left _ v).trans (List.sublist_append_right u _)
  rw [← h] at hs
  exact hs

/-- Characters of `pyStrip l` come from `l`. -/
theorem pyStrip_mem {c : Char} {l : List Char} (h : c ∈ pyStrip l) : c ∈ l :=
  (pyStrip_sublist l).mem h

/-! ## The timestamp-tag matcher of `clean_repeated_lines`

`re.match(r"\[\d+:\d+\.\d+ --> .*?\]\s*(.*)", line)`. -/

/-- Match one expected character at the head. -/
def expectChar (c : Char) : List Char → Option (List Char)
  | x :: xs => if x = c then some xs else none
  | [] => none

/-- Match a literal sequence of characters at the head. -/
def expectLit : List Char → List Char → Option (List Char)
  | [], t => some t
  | c :: cs, x :: xs => if x = c then expectLit cs xs else none
  | _ :: _, [] => none

/-- `\d+` with maximal munch (equivalent to the regex since a non-digit
follows in the pattern). -/
def munchDigits (l : List Char) : Option (List Char) :=
  if l.takeWhile Char.isDigit = [] then none else some (l.dropWhile Char.isDigit)

/-- `.*?\]`: skip to the first `]`, failing on a newline. -/
def uptoRBracket : List Char → Option (List Char)
  | [] => none
  | c :: cs => if c = ']' then some cs else if c = '\n' then none else uptoRBracket cs

/-- The anchored match of `\[\d+:\d+\.\d+ --> .*?\]`; returns the text
after the closing `]` on success. -/
def tagSplit (l : List Char) : Option (List Char) :=
  (expectChar '[' l).bind fun r1 =>
  (munchDigits r1).bind fun r2 =>
  (expectChar ':' r2).bind fun r3 =>
  (munchDigits r3).bind fun r4 =>
  (expectChar '.' r4).bind fun r5 =>
  (munchDigits r5).bind fun r6 =>
  (expectLit (' ' :: '-' :: '-' :: '>' :: ' ' :: []) r6).bind fun r7 =>
  uptoRBracket r7

/-- The comparison key of one raw line:
`m.group(1).strip() if m else line.strip()`, where group 1 is `\s*(.*)`
after the tag (`\s*` munches whitespace, `(.*)` stops at a newline). -/
def extract_content (l : List Char) : List Char :=
  match tagSplit l with
  | some rest => pyStrip ((rest.dropWhile pySpace).takeWhile (fun c => c ≠ '\n'))
  | none => pyStrip l

/-- The loop of `clean_repeated_lines`, with the running `last_text`. -/
def cleanGo : Option (List Char) → List (List Char) → List (List Char)
  | _, [] => []
  | last, l :: ls =>
    if some (extract_content l) = last then cleanGo last ls
    else l :: cleanGo (some (extract_content l)) ls

/-- `clean_repeated_lines` of `batch_transcribe_all_videos.py`. -/
def clean_repeated_lines (ls : List (List Char)) : List (List Char) :=
  cleanGo none ls

/-! ## Lemmas about `clean_repeated_lines` -/

/-- The value of `last_text` after processing a list of lines: it is the
content of the last processed line (whether kept or dropped), or the
initial value if no line was processed. -/
def trackLast (o : Option (List Char)) : List (List Char) → Option (List Char)
  | [] => o
  | l :: ls => trackLast (some (extract_content l)) ls

theorem trackLast_concat (o : Option (List Char)) (xs : List (List Char))
    (l : List Char) : trackLast o (xs ++ [l]) = some (extract_content l) := by
  induction xs generalizing o with
  | nil => rfl
  | cons x xs ih => exact ih _

theorem cleanGo_sublist (o : Option (List Char)) (ls : List (List Char)) :
    List.Sublist (cleanGo o ls) ls := by
  induction ls generalizing o with
  | nil => simp [cleanGo]
  | cons l ls ih =>
    simp only [cleanGo]
    split
    · exact (ih _).cons l
    · exact (ih _).cons₂ l

theorem cleanGo_append (o : Option (List Char)) (xs ys : List (List Char)) :
    cleanGo o (xs ++ ys) = cleanGo o xs ++ cleanGo (trackLast o xs) ys := by
  induction xs generalizing o with
  | nil => rfl
  | cons l xs ih =>
    simp only [List.cons_append, cleanGo, trackLast, List.append_eq]
    split
    · rename_i h
      rw [ih, ← h]
    · rw [ih]
      simp

theorem cleanGo_dropRun (c : List Char) (rs post : List (List Char))
    (h : ∀ l ∈ rs, extract_content l = c) :
    cleanGo (some c) (rs ++ post) = cleanGo (some c) post := by
  induction rs with
  | nil => rfl
  | cons r rs ih =>
    simp only [List.cons_append, cleanGo]
    rw [if_pos (by rw [h r (List.mem_cons_self _ _)])]
    exact ih (fun l hl => h l (List.mem_cons_of_mem _ hl))

theorem cleanGo_keep (o : Option (List Char)) (r : List Char)
    (post : List (List Char)) (h : some (extract_content r) ≠ o) :
    cleanGo o (r :: post) = r :: cleanGo (some (extract_content r)) post := by
  simp only [cleanGo]
  rw [if_neg h]

theorem cleanGo_eq_self (ls : List (List Char)) :
    ∀ o, (∀ l ∈ ls.head?, some (extract_content l) ≠ o) →
    ls.Chain' (fun a b => extract_content b ≠ extract_content a) →
    cleanGo o ls = ls := by
  induction ls with
  | nil => intro o _ _; rfl
  | cons l ls ih =>
    intro o ho hc
    rw [cleanGo_keep o l ls (ho l rfl)]
    obtain ⟨h1, h2⟩ := List.chain'_cons'.mp hc
    refine congrArg _ (ih _ ?_ h2)
    intro l' hl'
    simpa using h1 l' hl'

/-- C2: on any list of lines in which no two adjacent lines have equal
extracted content (exact string equality of `extract_content` values),
`clean_repeated_lines` returns the input list unchanged. -/
theorem clean_repeated_lines_id_of_no_adjacent_dup (ls : List (List Char))
    (h : ls.Chain' (fun a b => extract_content b ≠ extract_content a)) :
    clean_repeated_lines ls = ls :=
  cleanGo_eq_self ls none (by simp) h

theorem clean_repeated_lines_id_witness :
    (["a1".data, "b2".data, "a1".data].Chain'
      (fun a b => extract_content b ≠ extract_content a))
    ∧ clean_repeated_lines ["a1".data, "b2".data, "a1".data]
        = ["a1".data, "b2".data, "a1".data] :=
  have hch : (["a1".data, "b2".data, "a1".data].Chain'
      (fun a b => extract_content b ≠ extract_content a)) :=
    List.chain'_cons.mpr ⟨by decide, List.chain'_cons.mpr
      ⟨by decide, List.chain'_singleton _⟩⟩
  ⟨hch, clean_repeated_lines_id_of_no_adjacent_dup _ hch⟩

/-- C9: an unparseable timestamp tag is tolerated: whenever the tag
matcher fails, `extract_content` falls back to the whole line, trimmed.
(The embedding itself witnesses that every operation is a total function
on arbitrary strings.) -/
theorem extract_content_fallback (l : List Char) (h : tagSplit l = none) :
    extract_content l = pyStrip l := by
  simp [extract_content, h]

theorem extract_content_fallback_witness :
    tagSplit ("[12:34 --> x] oops".data) = none
    ∧ extract_content ("[12:34 --> x] oops".data)
        = pyStrip ("[12:34 --> x] oops".data) :=
  ⟨by decide, extract_content_fallback _ (by decide)⟩

/-! ## C4: behaviour of `extract_content` on single lines -/

theorem expectChar_mem {c : Char} {l r : List Char} (h : expectChar c l = some r) :
    ∀ x ∈ r, x ∈ l := by
  cases l with
  | nil => simp [expectChar] at h
  | cons a t =>
    simp only [expectChar] at h
    split at h
    · cases h
      exact fun x hx => List.mem_cons_of_mem _ hx
    · cases h

theorem expectLit_mem {s l r : List Char} (h : expectLit s l = some r) :
    ∀ x ∈ r, x ∈ l := by
  induction s generalizing l with
  | nil => cases h; exact fun x hx => hx
  | cons c cs ih =>
    cases l with
    | nil => cases h
    | cons a t =>
      simp only [expectLit] at h
      split at h
      · exact fun x hx => List.mem_cons_of_mem _ (ih h x hx)
      · cases h

theorem munchDigits_mem {l r : List Char} (h : munchDigits l = some r) :
    ∀ x ∈ r, x ∈ l := by
  simp only [munchDigits] at h
  split at h
  · cases h
  · cases h
    exact fun x hx => (List.dropWhile_sublist _).mem hx

theorem uptoRBracket_mem {l r : List Char} (h : uptoRBracket l = some r) :
    ∀ x ∈ r, x ∈ l := by
  induction l with
  | nil => cases h
  | cons a t ih =>
    simp only [uptoRBracket] at h
    split at h
    · cases h
      exact fun x hx => List.mem_cons_of_mem _ hx
    · split at h
      · cases h
      · exact fun x hx => List.mem_cons_of_mem _ (ih h x hx)

theorem tagSplit_mem {l r : List Char} (h : tagSplit l = some r) :
    ∀ x ∈ r, x ∈ l := by
  simp only [tagSplit, Option.bind_eq_some] at h
  obtain ⟨r1, h1, r2, h2, r3, h3, r4, h4, r5, h5, r6, h6, r7, h7, h8⟩ := h
  intro x hx
  exact expectChar_mem h1 _ (munchDigits_mem h2 _ (expectChar_mem h3 _
    (munchDigits_mem h4 _ (expectChar_mem h5 _ (munchDigits_mem h6 _
      (expectLit_mem h7 _ (uptoRBracket_mem h8 _ hx)))))))

theorem takeWhile_eq_self_of_forall (p : Char → Bool) (l : List Char)
    (h : ∀ x ∈ l, p x) : l.takeWhile p = l := by
  induction l with
  | nil => rfl
  | cons a t ih =>
    rw [List.takeWhile_cons, if_pos (h a (List.mem_cons_self _ _))]
    exact congrArg _ (ih fun x hx => h x (List.mem_cons_of_mem _ hx))

/-- C4: `extract_content` of a line starting with a well-formed
timestamp tag is the text after the closing `]`, trimmed; otherwise it is
the whole line, trimmed.  The two concrete examples of the spec hold. -/
theorem extract_content_spec :
    (extract_content ("[00:01.000 --> 00:02.500] 你好世界".data) = "你好世界".data)
    ∧ (extract_content ("hello".data) = "hello".data)
    ∧ ∀ l : List Char, '\n' ∉ l →
        extract_content l =
          match tagSplit l with
          | some rest => pyStrip rest
          | none => pyStrip l := by
  refine ⟨by decide, by decide, ?_⟩
  intro l hl
  cases h : tagSplit l with
  | none => simp [extract_content, h]
  | some rest =>
    have hr : ∀ x ∈ rest.dropWhile pySpace, decide (x ≠ '\n') = true := by
      intro x hx
      have hxr : x ∈ rest := (List.dropWhile_sublist _).mem hx
      simp only [decide_eq_true_eq]
      intro he
      exact hl (he ▸ tagSplit_mem h x hxr)
    simp only [extract_content, h]
    rw [takeWhile_eq_self_of_forall _ _ hr, pyStrip_dropWhile]

theorem extract_content_spec_witness :
    ('\n' ∉ ("[0:0.0 --> 1:2.3]  台灣 政治 ".data))
    ∧ extract_content ("[0:0.0 --> 1:2.3]  台灣 政治 ".data)
        = pyStrip ("  台灣 政治 ".data) := by
  have h := extract_content_spec.2.2 ("[0:0.0 --> 1:2.3]  台灣 政治 ".data)
    (by decide)
  refine ⟨by decide, ?_⟩
  rw [h]
  decide

/-- C1: a maximal run of `N > 1` consecutive lines with identical
extracted content collapses to exactly its first line: the result equals
the result on the list with the run replaced by its first line alone, in
which that first line is kept; and the output is a sublist (kept lines
unmodified, in their original relative order) of the latter list. -/
theorem clean_repeated_lines_run (pre rs post : List (List Char))
    (r : List Char) (c : List Char)
    (hr : extract_content r = c) (hrs : ∀ l ∈ rs, extract_content l = c)
    (hN : rs ≠ [])
    (hpre : ∀ l ∈ pre.getLast?, extract_content l ≠ c)
    (hpost : ∀ l ∈ post.head?, extract_content l ≠ c) :
    clean_repeated_lines (pre ++ (r :: rs) ++ post)
      = clean_repeated_lines (pre ++ r :: post)
    ∧ r ∈ clean_repeated_lines (pre ++ r :: post)
    ∧ List.Sublist (clean_repeated_lines (pre ++ (r :: rs) ++ post))
        (pre ++ r :: post) := by
  have htr : trackLast none pre ≠ some c := by
    rcases List.eq_nil_or_concat pre with h | ⟨xs, x, h⟩
    · subst h; exact fun h => by cases h
    · subst h
      rw [List.concat_eq_append, trackLast_concat]
      have := hpre x (by rw [List.concat_eq_append, List.getLast?_concat]; rfl)
      simpa using this
  have hkeep : ∀ ys, cleanGo (trackLast none pre) (r :: ys)
      = r :: cleanGo (some c) ys := by
    intro ys
    rw [cleanGo_keep _ _ _ (by rw [hr]; exact fun he => htr he.symm), hr]
  have hL : clean_repeated_lines (pre ++ (r :: rs) ++ post)
      = cleanGo none pre ++ r :: cleanGo (some c) post := by
    rw [clean_repeated_lines, List.append_assoc, cleanGo_append]
    rw [show (r :: rs) ++ post = r :: (rs ++ post) from rfl, hkeep,
      cleanGo_dropRun c rs post hrs]
  have hR : clean_repeated_lines (pre ++ r :: post)
      = cleanGo none pre ++ r :: cleanGo (some c) post := by
    rw [clean_repeated_lines, cleanGo_append, hkeep]
  refine ⟨by rw [hL, hR], ?_, ?_⟩
  · rw [hR]
    exact List.mem_append_right _ (List.mem_cons_self _ _)
  · rw [hL]
    exact List.Sublist.append (cleanGo_sublist none pre)
      ((cleanGo_sublist (some c) post).cons₂ r)

theorem clean_repeated_lines_run_witness :
    (extract_content ("[0:0.0 --> 0:1.0] 大家好".data) = "大家好".data)
    ∧ (∀ l ∈ [("[0:1.0 --> 0:2.0]  大家好 ".data), ("大家好".data)],
        extract_content l = "大家好".data)
    ∧ ([("[0:1.0 --> 0:2.0]  大家好 ".data), ("大家好".data)]
        ≠ ([] : List (List Char)))
    ∧ (∀ l ∈ [("前言".data)].getLast?, extract_content l ≠ "大家好".data)
    ∧ (∀ l ∈ [("今天天氣".data)].head?, extract_content l ≠ "大家好".data)
    ∧ (clean_repeated_lines ([("前言".data)] ++
        (("[0:0.0 --> 0:1.0] 大家好".data) ::
          [("[0:1.0 --> 0:2.0]  大家好 ".data), ("大家好".data)]) ++
        [("今天天氣".data)])
      = clean_repeated_lines ([("前言".data)] ++
          ("[0:0.0 --> 0:1.0] 大家好".data) :: [("今天天氣".data)]))
    ∧ ("[0:0.0 --> 0:1.0] 大家好".data) ∈ clean_repeated_lines
        ([("前言".data)] ++ ("[0:0.0 --> 0:1.0] 大家好".data) ::
          [("今天天氣".data)]) := by
  have h := clean_repeated_lines_run [("前言".data)]
    [("[0:1.0 --> 0:2.0]  大家好 ".data), ("大家好".data)] [("今天天氣".data)]
    ("[0:0.0 --> 0:1.0] 大家好".data) ("大家好".data)
    (by decide) (by decide) (by decide) (by decide) (by decide)
  exact ⟨by decide, by decide, by decide, by decide, by decide, h.1, h.2.1⟩

/-! ## `_is_duplicate_line` of `youtube_transcribe.py` -/

/-- `pat.isPrefixOf t` for characters, written out. -/
def litPrefix : List Char → List Char → Bool
  | [], _ => true
  | _ :: _, [] => false
  | a :: as, b :: bs => a = b && litPrefix as bs

/-- Python `pat in t`: contiguous-substring test. -/
def containsSeq (pat : List Char) : List Char → Bool
  | [] => litPrefix pat []
  | c :: cs => litPrefix pat (c :: cs) || containsSeq pat cs

/-- `a` occurs in `b` as a contiguous segment. -/
def SubSeg (a b : List Char) : Prop := ∃ u v, b = u ++ a ++ v

theorem litPrefix_iff (pat t : List Char) :
    litPrefix pat t = true ↔ ∃ s, t = pat ++ s := by
  induction pat generalizing t with
  | nil => simp [litPrefix]
  | cons a as ih =>
    cases t with
    | nil => simp [litPrefix]
    | cons b bs =>
      simp only [litPrefix, Bool.and_eq_true, decide_eq_true_eq, ih,
        List.cons_append, List.cons.injEq]
      constructor
      · rintro ⟨rfl, s, rfl⟩
        exact ⟨s, rfl, rfl⟩
      · rintro ⟨s, rfl, rfl⟩
        exact ⟨rfl, s, rfl⟩

theorem containsSeq_iff (pat t : List Char) :
    containsSeq pat t = true ↔ SubSeg pat t := by
  induction t with
  | nil =>
    simp only [containsSeq, litPrefix_iff, SubSeg]
    constructor
    · rintro ⟨s, hs⟩
      exact ⟨[], s, by simpa using hs⟩
    · rintro ⟨u, v, huv⟩
      have hu : u = [] := by
        cases u with
        | nil => rfl
        | cons x xs => simp at huv
      subst hu
      exact ⟨v, by simpa using huv⟩
  | cons c cs ih =>
    simp only [containsSeq, Bool.or_eq_true, litPrefix_iff, ih, SubSeg]
    constructor
    · rintro (⟨s, hs⟩ | ⟨u, v, huv⟩)
      · exact ⟨[], s, by simpa using hs⟩
      · exact ⟨c :: u, v, by simp [huv]⟩
    · rintro ⟨u, v, huv⟩
      cases u with
      | nil => exact Or.inl ⟨v, by simpa using huv⟩
      | cons x xs =>
        simp only [List.cons_append, List.cons.injEq] at huv
        exact Or.inr ⟨xs, v, huv.2⟩

theorem SubSeg_eq_of_length {a b : List Char} (h : SubSeg a b)
    (hl : b.length ≤ a.length) : a = b := by
  obtain ⟨u, v, rfl⟩ := h
  simp only [List.length_append] at hl
  have hu : u.length = 0 := by omega
  have hv : v.length = 0 := by omega
  rw [List.length_eq_zero] at hu hv
  subst hu; subst hv
  simp

/-- `_is_duplicate_line(line1, line2, threshold)` of
`youtube_transcribe.py`; the float threshold and the length-ratio
comparison are modelled in `ℚ`. -/
def isDuplicateLine (line1 line2 : List Char) (threshold : ℚ) : Bool :=
  if line1 = line2 then true
  else if line1.filter pyIsAlnum = [] ∨ line2.filter pyIsAlnum = [] then false
  else if line1.filter pyIsAlnum = line2.filter pyIsAlnum then true
  else if (line1.filter pyIsAlnum).length < (line2.filter pyIsAlnum).length then
    containsSeq (line1.filter pyIsAlnum) (line2.filter pyIsAlnum) &&
      decide (((line1.filter pyIsAlnum).length : ℚ)
        / ((line2.filter pyIsAlnum).length : ℚ) > threshold)
  else
    containsSeq (line2.filter pyIsAlnum) (line1.filter pyIsAlnum) &&
      decide (((line2.filter pyIsAlnum).length : ℚ)
        / ((line1.filter pyIsAlnum).length : ℚ) > threshold)

/-- The spec's description of `near_duplicate`: exactly equal, or both
stripped forms non-empty and equal, or both non-empty with the shorter a
contiguous substring of the longer and length ratio strictly above the
threshold. -/
def specNearDuplicate (line1 line2 : List Char) (t : ℚ) : Prop :=
  line1 = line2 ∨
  (line1.filter pyIsAlnum ≠ [] ∧ line2.filter pyIsAlnum ≠ [] ∧
    (line1.filter pyIsAlnum = line2.filter pyIsAlnum ∨
     ((line1.filter pyIsAlnum).length ≤ (line2.filter pyIsAlnum).length ∧
      SubSeg (line1.filter pyIsAlnum) (line2.filter pyIsAlnum) ∧
      ((line1.filter pyIsAlnum).length : ℚ)
        / ((line2.filter pyIsAlnum).length : ℚ) > t) ∨
     ((line2.filter pyIsAlnum).length ≤ (line1.filter pyIsAlnum).length ∧
      SubSeg (line2.filter pyIsAlnum) (line1.filter pyIsAlnum) ∧
      ((line2.filter pyIsAlnum).length : ℚ)
        / ((line1.filter pyIsAlnum).length : ℚ) > t)))

theorem isDuplicateLine_iff_general (l1 l2 : List Char) (t : ℚ) :
    isDuplicateLine l1 l2 t = true ↔ specNearDuplicate l1 l2 t := by
  by_cases heq : l1 = l2
  · simp [isDuplicateLine, heq, specNearDuplicate]
  by_cases h1 : l1.filter pyIsAlnum = []
  · simp [isDuplicateLine, heq, specNearDuplicate, h1]
  by_cases h2 : l2.filter pyIsAlnum = []
  · simp [isDuplicateLine, heq, specNearDuplicate, h1, h2]
  by_cases hcc : l1.filter pyIsAlnum = l2.filter pyIsAlnum
  · simp [isDuplicateLine, heq, specNearDuplicate, h1, h2, hcc]
  by_cases hlt : (l1.filter pyIsAlnum).length < (l2.filter pyIsAlnum).length
  · rw [isDuplicateLine, if_neg heq, if_neg (by simp [h1, h2]), if_neg hcc,
      if_pos hlt]
    simp only [Bool.and_eq_true, containsSeq_iff, decide_eq_true_eq,
      specNearDuplicate]
    constructor
    · rintro ⟨hsub, hrat⟩
      exact Or.inr ⟨h1, h2, Or.inr (Or.inl ⟨Nat.le_of_lt hlt, hsub, hrat⟩)⟩
    · rintro (h | ⟨-, -, (h | ⟨hle, hsub, hrat⟩ | ⟨hle, hsub, hrat⟩)⟩)
      · exact absurd h heq
      · exact absurd h hcc
      · exact ⟨hsub, hrat⟩
      · exact absurd (SubSeg_eq_of_length hsub (Nat.le_of_lt hlt)).symm hcc
  · rw [isDuplicateLine, if_neg heq, if_neg (by simp [h1, h2]), if_neg hcc,
      if_neg hlt]
    simp only [Bool.and_eq_true, containsSeq_iff, decide_eq_true_eq,
      specNearDuplicate]
    constructor
    · rintro ⟨hsub, hrat⟩
      exact Or.inr ⟨h1, h2, Or.inr (Or.inr ⟨Nat.le_of_not_lt hlt, hsub, hrat⟩)⟩
    · rintro (h | ⟨-, -, (h | ⟨hle, hsub, hrat⟩ | ⟨hle, hsub, hrat⟩)⟩)
      · exact absurd h heq
      · exact absurd h hcc
      · exact absurd (SubSeg_eq_of_length hsub (Nat.le_of_not_lt hlt)) hcc
      · exact ⟨hsub, hrat⟩

/-- C3: at threshold `0.9`, `isDuplicateLine` returns true exactly as the
spec describes (exact equality, or equal non-empty stripped forms, or
shorter-substring-of-longer with length ratio strictly above the
threshold; false when a stripped form is empty and the originals differ),
and on the spec's concrete pair the ratio `8/10` does not exceed `0.9`,
so the result is false. -/
theorem isDuplicateLine_iff_spec :
    (∀ l1 l2 : List Char,
      isDuplicateLine l1 l2 (9/10) = true ↔ specNearDuplicate l1 l2 (9/10))
    ∧ isDuplicateLine ("台灣政治新聞快報".data)
        ("台灣政治新聞快報今天".data) (9/10) = false :=
  by
  refine ⟨fun l1 l2 => isDuplicateLine_iff_general l1 l2 (9/10), ?_⟩
  have e1 : (("台灣政治新聞快報".data).filter pyIsAlnum).length = 8 := by decide
  have e2 : (("台灣政治新聞快報今天".data).filter pyIsAlnum).length = 10 := by
    decide
  have hrat : ¬ (((("台灣政治新聞快報".data).filter pyIsAlnum).length : ℚ)
      / ((("台灣政治新聞快報今天".data).filter pyIsAlnum).length : ℚ) > 9/10) := by
    rw [e1, e2]
    norm_num
  rw [isDuplicateLine, if_neg (by decide), if_neg (by decide),
    if_neg (by decide), if_pos (by decide), decide_eq_false hrat,
    Bool.and_false]

/-- C10: `isDuplicateLine` is symmetric in its two text arguments, for
every threshold. -/
theorem isDuplicateLine_symm (l1 l2 : List Char) (t : ℚ) :
    isDuplicateLine l1 l2 t = isDuplicateLine l2 l1 t := by
  have hs : ∀ a b : List Char, specNearDuplicate a b t → specNearDuplicate b a t := by
    intro a b h
    rcases h with h | ⟨h1, h2, h | h | h⟩
    · exact Or.inl h.symm
    · exact Or.inr ⟨h2, h1, Or.inl h.symm⟩
    · exact Or.inr ⟨h2, h1, Or.inr (Or.inr h)⟩
    · exact Or.inr ⟨h2, h1, Or.inr (Or.inl h)⟩
  cases hb : isDuplicateLine l2 l1 t
  · cases hb' : isDuplicateLine l1 l2 t
    · rfl
    · exact absurd ((isDuplicateLine_iff_general l2 l1 t).mpr
        (hs _ _ ((isDuplicateLine_iff_general l1 l2 t).mp hb'))) (by simp [hb])
  · exact (isDuplicateLine_iff_general l1 l2 t).mpr
      (hs _ _ ((isDuplicateLine_iff_general l2 l1 t).mp hb))

/-! ## The boilerplate regexes of `_clean_subtitle_markers`

Each pattern of the source is compiled to a list of elements. `\d`-free
patterns use: literals (case-sensitive or ASCII-case-insensitive),
`\s*` (maximal munch, exact because each is followed by a literal with a
non-space head), `.*?stop` (first occurrence of `stop` on the current
line), `.*stop` (last occurrence of `stop` on the current line, the
greedy backtracking result), and a trailing `.*` (to end of line). -/

/-- ASCII lower-casing, the effect of `re.IGNORECASE` on the ASCII-only
case-insensitive literals of the source. -/
def asciiLower (c : Char) : Char :=
  if 'A' ≤ c ∧ c ≤ 'Z' then Char.ofNat (c.toNat + 32) else c

/-- Case-insensitive literal prefix test (pattern given pre-lowercased). -/
def litCIPrefix : List Char → List Char → Bool
  | [], _ => true
  | _ :: _, [] => false
  | a :: as, b :: bs => asciiLower b = a && litCIPrefix as bs

/-- `.*?stop`: first occurrence of `stop`, not crossing a newline. -/
def lazyUpto (stop : List Char) : List Char → Option (List Char)
  | [] => if litPrefix stop [] then some [] else none
  | c :: cs =>
    if litPrefix stop (c :: cs) then some ((c :: cs).drop stop.length)
    else if c = '\n' then none
    else lazyUpto stop cs

/-- `.*stop` (greedy): last occurrence of `stop`, not crossing a newline. -/
def greedyUpto (stop : List Char) : List Char → Option (List Char)
  | [] => if litPrefix stop [] then some [] else none
  | c :: cs =>
    if c = '\n' then
      if litPrefix stop (c :: cs) then some ((c :: cs).drop stop.length)
      else none
    else
      match greedyUpto stop cs with
      | some r => some r
      | none =>
        if litPrefix stop (c :: cs) then some ((c :: cs).drop stop.length)
        else none

/-- One regex element. -/
inductive PElem where
  | lit (s : List Char)
  | litCI (s : List Char)
  | wsStar
  | lazy (stop : List Char)
  | greedy (stop : List Char)
  | restOfLine
deriving DecidableEq

/-- Match one element at the current position; returns the rest. -/
def elemMatch : PElem → List Char → Option (List Char)
  | .lit s, t => if litPrefix s t then some (t.drop s.length) else none
  | .litCI s, t => if litCIPrefix s t then some (t.drop s.length) else none
  | .wsStar, t => some (t.dropWhile pySpace)
  | .lazy stop, t => lazyUpto stop t
  | .greedy stop, t => greedyUpto stop t
  | .restOfLine, t => some (t.dropWhile (fun c => c ≠ '\n'))

/-- Match a whole pattern at the current position. -/
def matchAt : List PElem → List Char → Option (List Char)
  | [], t => some t
  | e :: es, t => (elemMatch e t).bind (matchAt es)

/-- `re.sub(pattern, '', ·)`: scan left to right, delete each match and
continue after it.  Fuelled by the input length; every pattern of the
source starts with a non-empty literal, so a match always consumes at
least one character and the fuel never runs out. -/
def reSubAux (p : List PElem) : Nat → List Char → List Char
  | 0, t => t
  | _ + 1, [] => []
  | f + 1, c :: cs =>
    match matchAt p (c :: cs) with
    | some r => reSubAux p f r
    | none => c :: reSubAux p f cs

def reSub (p : List PElem) (t : List Char) : List Char := reSubAux p t.length t

/-- The pattern table of `_clean_subtitle_markers`, in source order:
`字幕由\s*Amara\.org\s*社群提供`, `字幕由.*?社群提供`, `翻译.*?校对.*`,
`字幕制作.*`, `Subtitles by.*`, `Translated by.*`, `請訂閱.*頻道`,
`喜歡.*請按讚`, `記得開啟小鈴鐺`, and the six bracketed noise markers. -/
def boilerPatterns : List (List PElem) :=
  [ [.lit ['字', '幕', '由'], .wsStar,
      .litCI ['a', 'm', 'a', 'r', 'a', '.', 'o', 'r', 'g'], .wsStar,
      .lit ['社', '群', '提', '供']],
    [.lit ['字', '幕', '由'], .lazy ['社', '群', '提', '供']],
    [.lit ['翻', '译'], .lazy ['校', '对'], .restOfLine],
    [.lit ['字', '幕', '制', '作'], .restOfLine],
    [.litCI ['s', 'u', 'b', 't', 'i', 't', 'l', 'e', 's', ' ', 'b', 'y'],
      .restOfLine],
    [.litCI ['t', 'r', 'a', 'n', 's', 'l', 'a', 't', 'e', 'd', ' ', 'b', 'y'],
      .restOfLine],
    [.lit ['請', '訂', '閱'], .greedy ['頻', '道']],
    [.lit ['喜', '歡'], .greedy ['請', '按', '讚']],
    [.lit ['記', '得', '開', '啟', '小', '鈴', '鐺']],
    [.lit ['[', '音', '樂', ']']], [.lit ['[', '掌', '聲', ']']],
    [.lit ['[', '笑', '聲', ']']],
    [.lit ['(', '音', '樂', ')']], [.lit ['(', '掌', '聲', ')']],
    [.lit ['(', '笑', '聲', ')']] ]

/-- `_clean_subtitle_markers` of `youtube_transcribe.py`: apply each
`re.sub` in order, then strip. -/
def cleanSubtitleMarkers (t : List Char) : List Char :=
  pyStrip (boilerPatterns.foldl (fun acc p => reSub p acc) t)

/-! ## Generic lemmas about `reSub` -/

theorem litPrefix_length {s t : List Char} (h : litPrefix s t = true) :
    s.length ≤ t.length := by
  obtain ⟨r, rfl⟩ := (litPrefix_iff s t).mp h
  simp

theorem litCIPrefix_length {s t : List Char} (h : litCIPrefix s t = true) :
    s.length ≤ t.length := by
  induction s generalizing t with
  | nil => simp
  | cons a as ih =>
    cases t with
    | nil => simp [litCIPrefix] at h
    | cons b bs =>
      simp only [litCIPrefix, Bool.and_eq_true] at h
      simpa using ih h.2

theorem lazyUpto_length_le {stop t r : List Char} (h : lazyUpto stop t = some r) :
    r.length ≤ t.length := by
  induction t with
  | nil =>
    simp only [lazyUpto] at h
    split at h
    · cases h; simp
    · cases h
  | cons c cs ih =>
    simp only [lazyUpto] at h
    split at h
    · cases h
      exact (List.length_drop _ _).le.trans (by simp)
    · split at h
      · cases h
      · exact (ih h).trans (by simp)

theorem greedyUpto_length_le {stop t r : List Char}
    (h : greedyUpto stop t = some r) : r.length ≤ t.length := by
  induction t with
  | nil =>
    simp only [greedyUpto] at h
    split at h
    · cases h; simp
    · cases h
  | cons c cs ih =>
    by_cases hnl : c = '\n'
    · simp only [greedyUpto, if_pos hnl] at h
      split at h
      · cases h
        exact (List.length_drop _ _).le.trans (by simp)
      · cases h
    · simp only [greedyUpto, if_neg hnl] at h
      cases hg : greedyUpto stop cs with
      | some r' =>
        simp only [hg] at h
        cases h
        exact (ih hg).trans (by simp)
      | none =>
        simp only [hg] at h
        split at h
        · cases h
          exact (List.length_drop _ _).le.trans (by simp)
        · cases h

theorem elemMatch_length_le {e : PElem} {t r : List Char}
    (h : elemMatch e t = some r) : r.length ≤ t.length := by
  cases e with
  | lit s =>
    simp only [elemMatch] at h
    split at h
    · cases h; exact (List.length_drop _ _).le.trans (by simp)
    · cases h
  | litCI s =>
    simp only [elemMatch] at h
    split at h
    · cases h; exact (List.length_drop _ _).le.trans (by simp)
    · cases h
  | wsStar =>
    simp only [elemMatch] at h
    cases h
    exact (List.dropWhile_sublist _).length_le
  | lazy stop => exact lazyUpto_length_le h
  | greedy stop => exact greedyUpto_length_le h
  | restOfLine =>
    simp only [elemMatch] at h
    cases h
    exact (List.dropWhile_sublist _).length_le

theorem matchAt_length_le {p : List PElem} {t r : List Char}
    (h : matchAt p t = some r) : r.length ≤ t.length := by
  induction p generalizing t with
  | nil => cases h; exact le_refl _
  | cons e es ih =>
    simp only [matchAt, Option.bind_eq_some] at h
    obtain ⟨r1, h1, h2⟩ := h
    exact (ih h2).trans (elemMatch_length_le h1)

/-- The pattern starts with a non-empty literal (true of every pattern in
`boilerPatterns`). -/
def startsNonempty : List PElem → Bool
  | .lit (_ :: _) :: _ => true
  | .litCI (_ :: _) :: _ => true
  | _ => false

theorem matchAt_nil_none {p : List PElem} (hs : startsNonempty p = true) :
    matchAt p [] = none := by
  match p, hs with
  | .lit (a :: as) :: es, _ => simp [matchAt, elemMatch, litPrefix]
  | .litCI (a :: as) :: es, _ => simp [matchAt, elemMatch, litCIPrefix]

theorem matchAt_some_length_lt {p : List PElem} (hs : startsNonempty p = true)
    {t r : List Char} (h : matchAt p t = some r) : r.length < t.length := by
  match p, hs with
  | .lit (a :: as) :: es, _ =>
    simp only [matchAt, Option.bind_eq_some] at h
    obtain ⟨r1, h1, h2⟩ := h
    simp only [elemMatch] at h1
    split at h1
    · rename_i hpre
      have hlen := litPrefix_length hpre
      cases h1
      have h3 := matchAt_length_le h2
      simp only [List.length_drop] at h3
      have hcons : (a :: as).length = as.length + 1 := by simp
      omega
    · cases h1
  | .litCI (a :: as) :: es, _ =>
    simp only [matchAt, Option.bind_eq_some] at h
    obtain ⟨r1, h1, h2⟩ := h
    simp only [elemMatch] at h1
    split at h1
    · rename_i hpre
      have hlen := litCIPrefix_length hpre
      cases h1
      have h3 := matchAt_length_le h2
      simp only [List.length_drop] at h3
      have hcons : (a :: as).length = as.length + 1 := by simp
      omega
    · cases h1

theorem reSubAux_congr {p : List PElem} (hs : startsNonempty p = true) :
    ∀ (f1 : Nat), ∀ {f2 : Nat} {t : List Char},
      t.length ≤ f1 → t.length ≤ f2 → reSubAux p f1 t = reSubAux p f2 t := by
  intro f1
  induction f1 with
  | zero =>
    intro f2 t h1 _
    have : t = [] := List.length_eq_zero.mp (Nat.le_zero.mp h1)
    subst this
    cases f2 <;> rfl
  | succ f1 ih =>
    intro f2 t h1 h2
    cases t with
    | nil => cases f2 <;> rfl
    | cons c cs =>
      cases f2 with
      | zero => simp at h2
      | succ f2 =>
        simp only [reSubAux]
        cases hm : matchAt p (c :: cs) with
        | some r =>
          have hlt := matchAt_some_length_lt hs hm
          simp only [List.length_cons] at h1 h2 hlt
          exact ih (by omega) (by omega)
        | none =>
          simp only [List.length_cons] at h1 h2
          exact congrArg _ (ih (by omega) (by omega))

theorem reSub_cons_none {p : List PElem} {c : Char} {cs : List Char}
    (h : matchAt p (c :: cs) = none) :
    reSub p (c :: cs) = c :: reSub p cs := by
  show reSubAux p (c :: cs).length (c :: cs) = c :: reSubAux p cs.length cs
  rw [List.length_cons]
  simp only [reSubAux, h]

theorem reSub_some {p : List PElem} (hs : startsNonempty p = true)
    {t r : List Char} (h : matchAt p t = some r) : reSub p t = reSub p r := by
  cases t with
  | nil => rw [matchAt_nil_none hs] at h; cases h
  | cons c cs =>
    have hlt := matchAt_some_length_lt hs h
    show reSubAux p (c :: cs).length (c :: cs) = reSubAux p r.length r
    rw [List.length_cons]
    simp only [reSubAux, h]
    exact reSubAux_congr hs cs.length
      (by simp only [List.length_cons] at hlt; omega) (le_refl _)

/-- Characters at which a pattern's match attempt fails immediately. -/
def canStart (p : List PElem) (c : Char) : Bool :=
  match p with
  | .lit (a :: _) :: _ => c = a
  | .litCI (a :: _) :: _ => asciiLower c = a
  | _ => true

theorem matchAt_cons_none_of_not_canStart {p : List PElem} {c : Char}
    {cs : List Char} (h : canStart p c = false) :
    matchAt p (c :: cs) = none := by
  match p, h with
  | .lit (a :: as) :: es, h =>
    simp only [canStart, decide_eq_false_iff_not] at h
    simp only [matchAt, elemMatch, litPrefix]
    rw [if_neg]
    · rfl
    · simp only [Bool.and_eq_true, decide_eq_true_eq, not_and]
      intro hac
      exact absurd hac.symm h
  | .litCI (a :: as) :: es, h =>
    simp only [canStart, decide_eq_false_iff_not] at h
    simp only [matchAt, elemMatch, litCIPrefix]
    rw [if_neg]
    · rfl
    · simp only [Bool.and_eq_true, decide_eq_true_eq, not_and]
      intro hac
      exact absurd hac h

theorem reSub_id_of_all_notStart {p : List PElem} {x : List Char}
    (h : ∀ c ∈ x, canStart p c = false) : reSub p x = x := by
  induction x with
  | nil => rfl
  | cons c cs ih =>
    rw [reSub_cons_none
      (matchAt_cons_none_of_not_canStart (h c (List.mem_cons_self _ _)))]
    exact congrArg _ (ih fun d hd => h d (List.mem_cons_of_mem _ hd))

theorem reSub_append_left {p : List PElem} {a : List Char}
    (ha : ∀ c ∈ a, canStart p c = false) (x : List Char) :
    reSub p (a ++ x) = a ++ reSub p x := by
  induction a with
  | nil => rfl
  | cons c cs ih =>
    rw [List.cons_append, reSub_cons_none
      (matchAt_cons_none_of_not_canStart (ha c (List.mem_cons_self _ _))),
      ih fun d hd => ha d (List.mem_cons_of_mem _ hd), List.cons_append]

/-! ## C5: boilerplate removal is substring-based, not line-anchored -/

/-- Characters that cannot start a match of any boilerplate pattern. -/
def safeChar (c : Char) : Bool :=
  decide (c ≠ '字') && decide (c ≠ '翻') && decide (c ≠ '請') &&
  decide (c ≠ '喜') && decide (c ≠ '記') && decide (c ≠ '[') &&
  decide (c ≠ '(') && decide (asciiLower c ≠ 's') &&
  decide (asciiLower c ≠ 't')

theorem canStart_of_safe {c : Char} (h : safeChar c = true) :
    ∀ p ∈ boilerPatterns, canStart p c = false := by
  simp only [safeChar, Bool.and_eq_true, decide_eq_true_eq] at h
  obtain ⟨⟨⟨⟨⟨⟨⟨⟨h1, h2⟩, h3⟩, h4⟩, h5⟩, h6⟩, h7⟩, h8⟩, h9⟩ := h
  intro p hp
  fin_cases hp <;> simp [canStart, h1, h2, h3, h4, h5, h6, h7, h8, h9]

theorem canStart_first9 {c : Char}
    (h : safeChar c = true ∨ c ∈ ['[', '音', '樂', ']']) :
    ∀ p ∈ boilerPatterns.take 9, canStart p c = false := by
  intro p hp
  rcases h with h | h
  · exact canStart_of_safe h p (List.take_subset 9 boilerPatterns hp)
  · fin_cases hp <;> fin_cases h <;> decide

theorem foldl_reSub_id (ps : List (List PElem)) (t : List Char)
    (h : ∀ p ∈ ps, reSub p t = t) :
    ps.foldl (fun acc p => reSub p acc) t = t := by
  induction ps with
  | nil => rfl
  | cons p ps ih =>
    rw [List.foldl_cons, h p (List.mem_cons_self _ _)]
    exact ih fun q hq => h q (List.mem_cons_of_mem _ hq)

/-- C5: a boilerplate marker is removed wherever it occurs in the text,
with no anchoring to line boundaries and no whitespace inserted: around
any occurrences of `[音樂]`, context made of characters that cannot start
any boilerplate pattern (newlines included) is preserved verbatim, and
the pipeline result is the concatenation of the contexts, stripped; in
particular the spec's example `大家好[音樂]今天 ↦ 大家好今天` holds. -/
theorem cleanSubtitleMarkers_mid :
    (∀ a b : List Char, (∀ c ∈ a, safeChar c = true) →
      (∀ c ∈ b, safeChar c = true) →
      cleanSubtitleMarkers (a ++ ['[', '音', '樂', ']'] ++ b)
        = pyStrip (a ++ b))
    ∧ (∀ a b d : List Char, (∀ c ∈ a, safeChar c = true) →
      (∀ c ∈ b, safeChar c = true) → (∀ c ∈ d, safeChar c = true) →
      cleanSubtitleMarkers
          (a ++ ['[', '音', '樂', ']'] ++ b ++ ['[', '音', '樂', ']'] ++ d)
        = pyStrip (a ++ b ++ d))
    ∧ cleanSubtitleMarkers ("大家好[音樂]今天".data) = "大家好今天".data := by
  have hplant : ∀ x : List Char,
      matchAt [.lit ['[', '音', '樂', ']']] (['[', '音', '樂', ']'] ++ x)
        = some x := by
    intro x
    simp only [matchAt, elemMatch]
    rw [if_pos ((litPrefix_iff _ _).mpr ⟨x, rfl⟩)]
    rfl
  have hmem10 : [PElem.lit ['[', '音', '樂', ']']] ∈ boilerPatterns := by
    simp [boilerPatterns]
  have hid : ∀ x : List Char, (∀ c ∈ x, safeChar c = true) →
      ∀ p ∈ boilerPatterns, reSub p x = x := by
    intro x hx p hp
    exact reSub_id_of_all_notStart fun c hc => canStart_of_safe (hx c hc) p hp
  have hfold9 : ∀ t : List Char,
      (∀ c ∈ t, safeChar c = true ∨ c ∈ ['[', '音', '樂', ']']) →
      (boilerPatterns.take 9).foldl (fun acc p => reSub p acc) t = t := by
    intro t ht
    exact foldl_reSub_id _ t fun p hp =>
      reSub_id_of_all_notStart fun c hc => canStart_first9 (ht c hc) p hp
  have hfold5 : ∀ t : List Char, (∀ c ∈ t, safeChar c = true) →
      (boilerPatterns.drop 10).foldl (fun acc p => reSub p acc) t = t := by
    intro t ht
    exact foldl_reSub_id _ t fun p hp =>
      hid t ht p (List.drop_subset 10 boilerPatterns hp)
  have hsplit : boilerPatterns = boilerPatterns.take 9 ++
      ([PElem.lit ['[', '音', '樂', ']']] :: boilerPatterns.drop 10) := by rfl
  have hstep : ∀ t : List Char,
      (∀ c ∈ t, safeChar c = true ∨ c ∈ ['[', '音', '樂', ']']) →
      ∀ r : List Char,
      reSub [PElem.lit ['[', '音', '樂', ']']] t = r →
      (∀ c ∈ r, safeChar c = true) →
      cleanSubtitleMarkers t = pyStrip r := by
    intro t ht r hr hrsafe
    rw [cleanSubtitleMarkers, hsplit, List.foldl_append, hfold9 t ht,
      List.foldl_cons, hr, hfold5 r hrsafe]
  have hsafeMem : ∀ (x y : List Char) (c : Char), (∀ e ∈ x, safeChar e = true) →
      (∀ e ∈ y, safeChar e = true) → c ∈ x ++ y → safeChar c = true := by
    intro x y c hx hy hc
    rcases List.mem_append.mp hc with h | h
    · exact hx c h
    · exact hy c h
  have hns : startsNonempty [PElem.lit ['[', '音', '樂', ']']] = true := rfl
  have hone : ∀ a b : List Char, (∀ c ∈ a, safeChar c = true) →
      (∀ c ∈ b, safeChar c = true) →
      cleanSubtitleMarkers (a ++ ['[', '音', '樂', ']'] ++ b)
        = pyStrip (a ++ b) := by
    intro a b ha hb
    have ht : ∀ c ∈ a ++ ['[', '音', '樂', ']'] ++ b,
        safeChar c = true ∨ c ∈ ['[', '音', '樂', ']'] := by
      intro c hc
      rw [List.append_assoc, List.mem_append] at hc
      rcases hc with hc | hc
      · exact Or.inl (ha c hc)
      · rcases List.mem_append.mp hc with hc | hc
        · exact Or.inr hc
        · exact Or.inl (hb c hc)
    refine hstep _ ht (a ++ b) ?_ (fun c hc => hsafeMem a b c ha hb hc)
    rw [List.append_assoc,
      reSub_append_left (fun c hc => canStart_of_safe (ha c hc) _ hmem10),
      reSub_some hns (hplant b), hid b hb _ hmem10]
  refine ⟨hone, ?_, ?_⟩
  · intro a b d ha hb hd
    have ht : ∀ c ∈ a ++ ['[', '音', '樂', ']'] ++ b ++ ['[', '音', '樂', ']'] ++ d,
        safeChar c = true ∨ c ∈ ['[', '音', '樂', ']'] := by
      intro c hc
      simp only [List.append_assoc, List.mem_append] at hc
      rcases hc with hc | hc | hc | hc | hc
      · exact Or.inl (ha c hc)
      · exact Or.inr hc
      · exact Or.inl (hb c hc)
      · exact Or.inr hc
      · exact Or.inl (hd c hc)
    have hr : reSub [PElem.lit ['[', '音', '樂', ']']]
        (a ++ ['[', '音', '樂', ']'] ++ b ++ ['[', '音', '樂', ']'] ++ d)
        = a ++ (b ++ d) := by
      simp only [List.append_assoc]
      rw [reSub_append_left (fun c hc => canStart_of_safe (ha c hc) _ hmem10)]
      rw [reSub_some hns (hplant _)]
      rw [reSub_append_left (fun c hc => canStart_of_safe (hb c hc) _ hmem10)]
      rw [reSub_some hns (hplant _), hid d hd _ hmem10]
    have hrsafe : ∀ c ∈ a ++ (b ++ d), safeChar c = true := by
      intro c hc
      exact hsafeMem a (b ++ d) c ha (fun e he => hsafeMem b d e hb hd he) hc
    have := hstep _ ht (a ++ (b ++ d)) hr hrsafe
    rw [this, List.append_assoc]
  · have ha : ∀ c ∈ "大家好".data, safeChar c = true := by decide
    have hb : ∀ c ∈ "今天".data, safeChar c = true := by decide
    have hrw : "大家好[音樂]今天".data
        = "大家好".data ++ ['[', '音', '樂', ']'] ++ "今天".data := by decide
    rw [hrw, hone _ _ ha hb]
    decide

theorem cleanSubtitleMarkers_mid_witness :
    (∀ c ∈ "大家好".data, safeChar c = true)
    ∧ (∀ c ∈ "今天".data, safeChar c = true)
    ∧ cleanSubtitleMarkers ("大家好".data ++ ['[', '音', '樂', ']'] ++ "今天".data)
        = pyStrip ("大家好".data ++ "今天".data) :=
  ⟨by decide, by decide, cleanSubtitleMarkers_mid.1 _ _ (by decide) (by decide)⟩

/-! ## `_remove_consecutive_duplicates` and the save pipeline -/

/-- The loop of `_remove_consecutive_duplicates`: `prev` is `None`, a
kept stripped line, or `some []` after a kept blank line.  A blank line
is kept (as `[]`) only when `prev ≠ some []`; a non-blank stripped line
is kept unless it near-duplicates `prev`. -/
def rcdGo : Option (List Char) → List (List Char) → List (List Char)
  | _, [] => []
  | prev, l :: ls =>
    if pyStrip l = [] then
      if prev = some [] then rcdGo prev ls
      else [] :: rcdGo (some []) ls
    else
      match prev with
      | none => pyStrip l :: rcdGo (some (pyStrip l)) ls
      | some pl =>
        if isDuplicateLine (pyStrip l) pl (9/10) then rcdGo prev ls
        else pyStrip l :: rcdGo (some (pyStrip l)) ls

/-- `_remove_consecutive_duplicates` of `youtube_transcribe.py`:
split on newlines, filter with `rcdGo`, and re-join. -/
def removeConsecutiveDuplicates (t : List Char) : List Char :=
  ['\n'].intercalate (rcdGo none (t.splitOn '\n'))

/-- `re.sub(r'\n{3,}', '\n\n', ·)`: each maximal run of three or more
newlines becomes exactly two.  Fuelled by the input length (each step
consumes at least one character). -/
def collapseNl3Aux : Nat → List Char → List Char
  | 0, t => t
  | _ + 1, [] => []
  | f + 1, c :: cs =>
    if c = '\n' then
      if 2 ≤ (cs.takeWhile (fun d => d = '\n')).length then
        '\n' :: '\n' :: collapseNl3Aux f (cs.dropWhile (fun d => d = '\n'))
      else c :: collapseNl3Aux f cs
    else c :: collapseNl3Aux f cs

def collapseNl3 (t : List Char) : List Char := collapseNl3Aux t.length t

/-- The text post-processing of `save_transcript`: boilerplate cleaning,
line-level adjacent-duplicate removal, blank-line collapse, and the final
`strip` before writing. -/
def savePipeline (t : List Char) : List Char :=
  pyStrip (collapseNl3 (removeConsecutiveDuplicates (cleanSubtitleMarkers t)))

/-! ## Lemmas about lines, `intercalate`, and `splitOn` -/

theorem intercalate_nil : ['\n'].intercalate ([] : List (List Char)) = [] := by
  simp [List.intercalate]

theorem intercalate_single (x : List Char) : ['\n'].intercalate [x] = x := by
  simp [List.intercalate]

theorem intercalate_cons_cons (x y : List Char) (l : List (List Char)) :
    ['\n'].intercalate (x :: y :: l) = x ++ '\n' :: ['\n'].intercalate (y :: l) := by
  simp [List.intercalate, List.intersperse]

theorem mem_splitOn_not_mem (t : List Char) :
    ∀ l ∈ t.splitOn '\n', '\n' ∉ l := by
  induction t with
  | nil =>
    intro l hl
    simp only [List.splitOn_nil, List.mem_singleton] at hl
    simp [hl]
  | cons c cs ih =>
    intro l hl
    simp only [List.splitOn] at hl ih
    rw [List.splitOnP_cons] at hl
    by_cases hc : c = '\n'
    · rw [if_pos (by simp [hc])] at hl
      rcases List.mem_cons.mp hl with rfl | hl
      · simp
      · exact ih l hl
    · rw [if_neg (by simp [hc])] at hl
      cases hsp : cs.splitOnP (· == '\n') with
      | nil => exact absurd hsp (List.splitOnP_ne_nil _ cs)
      | cons h tl =>
        rw [hsp] at hl
        simp only [List.modifyHead] at hl
        rcases List.mem_cons.mp hl with rfl | hl
        · intro hmem
          rcases List.mem_cons.mp hmem with h' | h'
          · exact hc h'.symm
          · exact ih h (by rw [hsp]; exact List.mem_cons_self _ _) h'
        · exact ih l (by rw [hsp]; exact List.mem_cons_of_mem _ hl)

theorem splitOn_ne_nil (t : List Char) : t.splitOn '\n' ≠ [] :=
  List.splitOnP_ne_nil _ t

/-- Occurrences embed into larger strings. -/
theorem SubSeg_embed {pat x : List Char} (h : SubSeg pat x) (u v : List Char) :
    SubSeg pat (u ++ x ++ v) := by
  obtain ⟨a, b, rfl⟩ := h
  exact ⟨u ++ a, b ++ v, by simp⟩

/-- An occurrence of a pattern headed by `'\n'` in `x ++ r` with
newline-free `x` lies in `r`. -/
theorem SubSeg_nlpat_right {pat x r : List Char} (hpat : pat.head? = some '\n')
    (hx : '\n' ∉ x) (h : SubSeg pat (x ++ r)) : SubSeg pat r := by
  obtain ⟨u, v, huv⟩ := h
  rw [List.append_assoc] at huv
  rcases List.append_eq_append_iff.mp huv with ⟨a, hu, hr⟩ | ⟨b, hx2, hpv⟩
  · exact ⟨a, v, by rw [hr, List.append_assoc]⟩
  · cases b with
    | nil =>
      simp only [List.nil_append] at hpv
      exact ⟨[], v, by simp [hpv.symm]⟩
    | cons e b' =>
      exfalso
      cases pat with
      | nil => simp at hpat
      | cons p ps =>
        simp only [List.head?_cons, Option.some.injEq] at hpat
        subst hpat
        simp only [List.cons_append, List.cons.injEq] at hpv
        apply hx
        rw [hx2, ← hpv.1]
        exact List.mem_append_right u (List.mem_cons_self _ _)

/-! ## Lemmas about `collapseNl3` -/

/-- Length of the leading newline run. -/
def leadNl (t : List Char) : Nat := (t.takeWhile (fun d => d = '\n')).length

theorem leadNl_cons (c : Char) (x : List Char) :
    leadNl (c :: x) = if c = '\n' then leadNl x + 1 else 0 := by
  by_cases h : c = '\n' <;> simp [leadNl, List.takeWhile_cons, h]

theorem leadNl_dropNl (x : List Char) :
    leadNl (x.dropWhile (fun d => d = '\n')) = 0 := by
  cases h : x.dropWhile (fun d => d = '\n') with
  | nil => simp [leadNl]
  | cons a t =>
    have ha := head_dW_not (fun d => d = '\n') x a (by rw [h]; rfl)
    simp only [decide_eq_true_eq] at ha
    simp [leadNl, List.takeWhile_cons, ha]

theorem litPrefix_nl2_iff (x : List Char) :
    litPrefix ['\n', '\n'] x = true ↔ 2 ≤ leadNl x := by
  rw [litPrefix_iff]
  constructor
  · rintro ⟨s, rfl⟩
    simp [leadNl, List.takeWhile_cons]
  · intro h
    match x, h with
    | c1 :: c2 :: t, h =>
      rw [leadNl_cons] at h
      by_cases h1 : c1 = '\n'
      · rw [if_pos h1, leadNl_cons] at h
        by_cases h2 : c2 = '\n'
        · exact ⟨t, by rw [h1, h2]; rfl⟩
        · rw [if_neg h2] at h; omega
      · rw [if_neg h1] at h; omega
    | [c1], h =>
      rw [leadNl_cons] at h
      by_cases h1 : c1 = '\n'
      · rw [if_pos h1] at h; simp [leadNl] at h
      · rw [if_neg h1] at h; omega
    | [], h => simp [leadNl] at h

theorem decideEq_comm (a b : Char) : decide (a = b) = decide (b = a) := by
  by_cases h : a = b
  · subst h; rfl
  · rw [decide_eq_false h, decide_eq_false (fun hh => h hh.symm)]

theorem containsSeq_nl3_cons (c : Char) (x : List Char) :
    containsSeq ['\n', '\n', '\n'] (c :: x)
      = ((decide (c = '\n') && litPrefix ['\n', '\n'] x)
        || containsSeq ['\n', '\n', '\n'] x) := by
  have h1 : litPrefix ['\n', '\n', '\n'] (c :: x)
      = (decide (c = '\n') && litPrefix ['\n', '\n'] x) := by
    show (decide ('\n' = c) && litPrefix ['\n', '\n'] x) = _
    rw [decideEq_comm]
  show (litPrefix ['\n', '\n', '\n'] (c :: x) || containsSeq ['\n', '\n', '\n'] x) = _
  rw [h1]

theorem collapseNl3Aux_congr :
    ∀ (f1 : Nat), ∀ {f2 : Nat} {t : List Char}, t.length ≤ f1 → t.length ≤ f2 →
    collapseNl3Aux f1 t = collapseNl3Aux f2 t := by
  intro f1
  induction f1 with
  | zero =>
    intro f2 t h1 _
    have : t = [] := List.length_eq_zero.mp (Nat.le_zero.mp h1)
    subst this
    cases f2 <;> rfl
  | succ f1 ih =>
    intro f2 t h1 h2
    cases t with
    | nil => cases f2 <;> rfl
    | cons c cs =>
      cases f2 with
      | zero => simp at h2
      | succ f2 =>
        simp only [collapseNl3Aux]
        simp only [List.length_cons] at h1 h2
        by_cases hc : c = '\n'
        · rw [if_pos hc, if_pos hc]
          by_cases hr : 2 ≤ (cs.takeWhile (fun d => d = '\n')).length
          · rw [if_pos hr, if_pos hr]
            have hd : (cs.dropWhile (fun d => d = '\n')).length ≤ cs.length :=
              (List.dropWhile_sublist _).length_le
            rw [@ih f2 (List.dropWhile (fun d => d = '\n') cs) (by omega)
              (by omega)]
          · rw [if_neg hr, if_neg hr, @ih f2 cs (by omega) (by omega)]
        · rw [if_neg hc, if_neg hc, @ih f2 cs (by omega) (by omega)]

theorem collapseNl3_nil : collapseNl3 [] = [] := rfl

theorem collapseNl3_cons_copy {c : Char} {cs : List Char}
    (h : ¬ (c = '\n' ∧ 2 ≤ (cs.takeWhile (fun d => d = '\n')).length)) :
    collapseNl3 (c :: cs) = c :: collapseNl3 cs := by
  show collapseNl3Aux (c :: cs).length (c :: cs) = _
  rw [List.length_cons]
  simp only [collapseNl3Aux]
  by_cases hc : c = '\n'
  · rw [if_pos hc, if_neg (fun hr => h ⟨hc, hr⟩)]
    rfl
  · rw [if_neg hc]
    rfl

theorem collapseNl3_big {cs : List Char}
    (h : 2 ≤ (cs.takeWhile (fun d => d = '\n')).length) :
    collapseNl3 ('\n' :: cs)
      = '\n' :: '\n' :: collapseNl3 (cs.dropWhile (fun d => d = '\n')) := by
  show collapseNl3Aux ('\n' :: cs).length ('\n' :: cs) = _
  rw [List.length_cons]
  simp only [collapseNl3Aux, if_true]
  rw [if_pos h]
  rw [collapseNl3Aux_congr cs.length (List.dropWhile_sublist _).length_le
    (le_refl _)]
  rfl

theorem collapseNl3_append_noNl {x : List Char} (hx : '\n' ∉ x)
    (r : List Char) : collapseNl3 (x ++ r) = x ++ collapseNl3 r := by
  induction x with
  | nil => rfl
  | cons c cs ih =>
    have hc : c ≠ '\n' := fun h => hx (h ▸ List.mem_cons_self _ _)
    rw [List.cons_append, collapseNl3_cons_copy (fun hh => hc hh.1),
      ih fun hm => hx (List.mem_cons_of_mem _ hm)]
    rfl

theorem collapseNl3_noNl {x : List Char} (hx : '\n' ∉ x) :
    collapseNl3 x = x := by
  have h := collapseNl3_append_noNl hx []
  simp only [List.append_nil, collapseNl3_nil] at h
  exact h

/-- `collapseNl3` output never contains three consecutive newlines, and
its leading newline run is at most 2 and no longer than the input one. -/
theorem collapseNl3Aux_noTriple :
    ∀ (f : Nat) (t : List Char), t.length ≤ f →
    containsSeq ['\n', '\n', '\n'] (collapseNl3Aux f t) = false ∧
    leadNl (collapseNl3Aux f t) ≤ 2 ∧
    leadNl (collapseNl3Aux f t) ≤ leadNl t := by
  intro f
  induction f with
  | zero =>
    intro t h
    have : t = [] := List.length_eq_zero.mp (Nat.le_zero.mp h)
    subst this
    exact ⟨rfl, by simp [collapseNl3Aux, leadNl], by simp [collapseNl3Aux]⟩
  | succ f ih =>
    intro t h
    cases t with
    | nil => exact ⟨rfl, by simp [collapseNl3Aux, leadNl], by simp [collapseNl3Aux]⟩
    | cons c cs =>
      simp only [List.length_cons] at h
      simp only [collapseNl3Aux]
      by_cases hc : c = '\n'
      · subst hc
        rw [if_pos rfl]
        by_cases hr : 2 ≤ (cs.takeWhile (fun d => d = '\n')).length
        · rw [if_pos hr]
          obtain ⟨ih1, ih2, ih3⟩ := ih (cs.dropWhile (fun d => d = '\n'))
            (le_trans (List.dropWhile_sublist _).length_le (by omega))
          have hlead0 : leadNl (collapseNl3Aux f (cs.dropWhile (fun d => d = '\n'))) = 0 := by
            have := leadNl_dropNl cs
            omega
          refine ⟨?_, ?_, ?_⟩
          · rw [containsSeq_nl3_cons, containsSeq_nl3_cons]
            simp only [decide_True, Bool.true_and, Bool.or_eq_false_iff]
            refine ⟨?_, ?_, ih1⟩
            · rw [Bool.eq_false_iff]
              intro hpre
              have h2 := (litPrefix_nl2_iff _).mp hpre
              rw [leadNl_cons, if_pos rfl] at h2
              omega
            · rw [Bool.eq_false_iff]
              intro hpre
              have h2 := (litPrefix_nl2_iff _).mp hpre
              omega
          · rw [leadNl_cons, if_pos rfl, leadNl_cons, if_pos rfl]
            omega
          · rw [leadNl_cons, if_pos rfl, leadNl_cons, if_pos rfl,
              leadNl_cons, if_pos rfl]
            have h2 : 2 ≤ leadNl cs := by
              simpa [leadNl] using hr
            omega
        · rw [if_neg hr]
          obtain ⟨ih1, ih2, ih3⟩ := ih cs (by omega)
          have hlead1 : leadNl cs ≤ 1 := by
            simp only [leadNl] at hr ⊢
            omega
          refine ⟨?_, ?_, ?_⟩
          · rw [containsSeq_nl3_cons]
            simp only [decide_True, Bool.true_and, Bool.or_eq_false_iff]
            refine ⟨?_, ih1⟩
            rw [Bool.eq_false_iff]
            intro hpre
            have h2 := (litPrefix_nl2_iff _).mp hpre
            omega
          · rw [leadNl_cons, if_pos rfl]
            omega
          · rw [leadNl_cons, if_pos rfl, leadNl_cons, if_pos rfl]
            omega
      · rw [if_neg hc]
        obtain ⟨ih1, ih2, ih3⟩ := ih cs (by omega)
        refine ⟨?_, ?_, ?_⟩
        · rw [containsSeq_nl3_cons]
          simp [hc, ih1]
        · rw [leadNl_cons, if_neg hc]
          omega
        · rw [leadNl_cons, if_neg hc]
          omega

theorem collapseNl3_noTriple (t : List Char) :
    containsSeq ['\n', '\n', '\n'] (collapseNl3 t) = false :=
  (collapseNl3Aux_noTriple t.length t (le_refl _)).1

theorem collapseNl3_eq_self {t : List Char}
    (h : containsSeq ['\n', '\n', '\n'] t = false) : collapseNl3 t = t := by
  induction t with
  | nil => rfl
  | cons c cs ih =>
    rw [containsSeq_nl3_cons, Bool.or_eq_false_iff] at h
    obtain ⟨h1, h2⟩ := h
    have hcopy : ¬ (c = '\n' ∧ 2 ≤ (cs.takeWhile (fun d => d = '\n')).length) := by
      rintro ⟨rfl, hr⟩
      rw [Bool.and_eq_false_iff] at h1
      rcases h1 with h1 | h1
      · simp at h1
      · rw [Bool.eq_false_iff] at h1
        exact h1 ((litPrefix_nl2_iff _).mpr (by simpa [leadNl] using hr))
    rw [collapseNl3_cons_copy hcopy, ih h2]

/-! ## C6: blank-line collapse after boilerplate removal -/

theorem pyStrip_head_not_ws (l : List Char) :
    ∀ c ∈ (pyStrip l).head?, ¬ pySpace c := by
  cases h : pyStrip l with
  | nil => simp
  | cons a t =>
    intro c hc
    have hca : a = c := by simpa using hc
    subst hca
    have hd := dropWhile_pyStrip l
    rw [h, List.dropWhile_cons] at hd
    by_cases hw : pySpace a
    · rw [if_pos hw] at hd
      have hlen := congrArg List.length hd
      have hle : (t.dropWhile pySpace).length ≤ t.length :=
        (List.dropWhile_sublist _).length_le
      simp only [List.length_cons] at hlen
      omega
    · exact hw

theorem pyStrip_getLast_not_ws (l : List Char) :
    ∀ c ∈ (pyStrip l).getLast?, ¬ pySpace c := by
  intro c hc
  have hne : pyStrip l ≠ [] := by
    intro h
    rw [h] at hc
    simp at hc
  have hc' : (pyStrip l).getLast hne = c := by
    have h := List.getLast?_eq_getLast (pyStrip l) hne
    rw [h] at hc
    simpa using hc
  subst hc'
  exact List.rdropWhile_last_not pySpace (l.dropWhile pySpace) hne

theorem pyStrip_eq_self {l : List Char}
    (h1 : ∀ c ∈ l.head?, ¬ pySpace c) (h2 : ∀ c ∈ l.getLast?, ¬ pySpace c) :
    pyStrip l = l := by
  unfold pyStrip
  have hd : l.dropWhile pySpace = l := by
    cases l with
    | nil => rfl
    | cons a t =>
      rw [List.dropWhile_cons, if_neg (h1 a rfl)]
  rw [hd, List.rdropWhile_eq_self_iff]
  intro hl
  exact h2 _ (by rw [List.getLast?_eq_getLast l hl]; rfl)

theorem takeWhileNl_nil {x : List Char} (hx : '\n' ∉ x) :
    x.takeWhile (fun d => d = '\n') = [] := by
  cases x with
  | nil => rfl
  | cons a t =>
    rw [List.takeWhile_cons, if_neg]
    simp only [decide_eq_true_eq]
    exact fun h => hx (h ▸ List.mem_cons_self _ _)

theorem collapseNl3_two_nl {sb : List Char} (hb : '\n' ∉ sb) :
    collapseNl3 ('\n' :: '\n' :: sb) = '\n' :: '\n' :: sb := by
  have h1 : ('\n' :: sb).takeWhile (fun d => d = '\n') = ['\n'] := by
    rw [List.takeWhile_cons, if_pos (by simp), takeWhileNl_nil hb]
  rw [collapseNl3_cons_copy (by rw [h1]; simp), collapseNl3_cons_copy
    (by rw [takeWhileNl_nil hb]; simp), collapseNl3_noNl hb]

theorem rcdGo_blank_skip {l : List Char} (ls : List (List Char))
    (hl : pyStrip l = []) :
    rcdGo (some []) (l :: ls) = rcdGo (some []) ls := by
  show (if pyStrip l = [] then
      (if (some [] : Option (List Char)) = some [] then rcdGo (some []) ls
       else [] :: rcdGo (some []) ls)
    else
      (if isDuplicateLine (pyStrip l) [] (9/10) then rcdGo (some []) ls
       else pyStrip l :: rcdGo (some (pyStrip l)) ls)) = rcdGo (some []) ls
  rw [if_pos hl, if_pos rfl]

theorem rcdGo_blank_keep {pl l : List Char} (ls : List (List Char))
    (hl : pyStrip l = []) (hp : pl ≠ []) :
    rcdGo (some pl) (l :: ls) = [] :: rcdGo (some []) ls := by
  show (if pyStrip l = [] then
      (if (some pl : Option (List Char)) = some [] then rcdGo (some pl) ls
       else [] :: rcdGo (some []) ls)
    else
      (if isDuplicateLine (pyStrip l) pl (9/10) then rcdGo (some pl) ls
       else pyStrip l :: rcdGo (some (pyStrip l)) ls)) = [] :: rcdGo (some []) ls
  rw [if_pos hl, if_neg (fun h => hp (Option.some.inj h))]

theorem rcdGo_nil_blank_keep {l : List Char} (ls : List (List Char))
    (hl : pyStrip l = []) :
    rcdGo none (l :: ls) = [] :: rcdGo (some []) ls := by
  show (if pyStrip l = [] then
      (if (none : Option (List Char)) = some [] then rcdGo none ls
       else [] :: rcdGo (some []) ls)
    else pyStrip l :: rcdGo (some (pyStrip l)) ls) = [] :: rcdGo (some []) ls
  rw [if_pos hl, if_neg (by simp)]

theorem rcdGo_none_keep {l : List Char} (ls : List (List Char))
    (hl : pyStrip l ≠ []) :
    rcdGo none (l :: ls) = pyStrip l :: rcdGo (some (pyStrip l)) ls := by
  show (if pyStrip l = [] then
      (if (none : Option (List Char)) = some [] then rcdGo none ls
       else [] :: rcdGo (some []) ls)
    else pyStrip l :: rcdGo (some (pyStrip l)) ls) = _
  rw [if_neg hl]

theorem rcdGo_some_dup {pl l : List Char} (ls : List (List Char))
    (hl : pyStrip l ≠ []) (hd : isDuplicateLine (pyStrip l) pl (9/10) = true) :
    rcdGo (some pl) (l :: ls) = rcdGo (some pl) ls := by
  show (if pyStrip l = [] then
      (if (some pl : Option (List Char)) = some [] then rcdGo (some pl) ls
       else [] :: rcdGo (some []) ls)
    else
      (if isDuplicateLine (pyStrip l) pl (9/10) then rcdGo (some pl) ls
       else pyStrip l :: rcdGo (some (pyStrip l)) ls)) = rcdGo (some pl) ls
  rw [if_neg hl, if_pos hd]

theorem rcdGo_some_keep {pl l : List Char} (ls : List (List Char))
    (hl : pyStrip l ≠ []) (hd : isDuplicateLine (pyStrip l) pl (9/10) = false) :
    rcdGo (some pl) (l :: ls) = pyStrip l :: rcdGo (some (pyStrip l)) ls := by
  show (if pyStrip l = [] then
      (if (some pl : Option (List Char)) = some [] then rcdGo (some pl) ls
       else [] :: rcdGo (some []) ls)
    else
      (if isDuplicateLine (pyStrip l) pl (9/10) then rcdGo (some pl) ls
       else pyStrip l :: rcdGo (some (pyStrip l)) ls)) = _
  rw [if_neg hl, if_neg (by rw [hd]; simp)]

theorem rcdGo_blanks (n : Nat) (ls : List (List Char)) :
    rcdGo (some []) (List.replicate n [] ++ ls) = rcdGo (some []) ls := by
  induction n with
  | zero => rfl
  | succ n ih =>
    rw [List.replicate_succ, List.cons_append, rcdGo_blank_skip _ pyStrip_nil]
    exact ih

theorem isDuplicateLine_nil_right {s : List Char} (t' : ℚ) (h : s ≠ []) :
    isDuplicateLine s [] t' = false := by
  rw [isDuplicateLine, if_neg h, if_pos (Or.inr (by simp))]

/-- C6: after boilerplate removal the pipeline collapses every run of two
or more blank lines between non-blank lines into exactly one blank line
and trims the whole block: around a run of `k+3` newlines (`k+2` blank
lines) the output is the two trimmed lines separated by one blank line;
the output never contains three consecutive newlines; the output is
already stripped; and the spec's example of `"a\n\n\n\nb"` becoming
`"a\n\nb"` holds. -/
theorem blankCollapse_spec :
    (∀ (a b : List Char) (k : Nat), '\n' ∉ a → '\n' ∉ b →
      pyStrip a ≠ [] → pyStrip b ≠ [] →
      pyStrip (collapseNl3 (removeConsecutiveDuplicates
          (a ++ List.replicate (k + 3) '\n' ++ b)))
        = pyStrip a ++ '\n' :: '\n' :: pyStrip b)
    ∧ (∀ t : List Char, ¬ SubSeg ['\n', '\n', '\n']
        (pyStrip (collapseNl3 (removeConsecutiveDuplicates t))))
    ∧ (∀ t : List Char,
        pyStrip (pyStrip (collapseNl3 (removeConsecutiveDuplicates t)))
          = pyStrip (collapseNl3 (removeConsecutiveDuplicates t)))
    ∧ pyStrip (collapseNl3 (removeConsecutiveDuplicates ("a\n\n\n\nb".data)))
        = "a\n\nb".data := by
  have hinter : ∀ (n : Nat) (b : List Char),
      ['\n'].intercalate (List.replicate (n + 1) [] ++ [b])
        = List.replicate (n + 1) '\n' ++ b := by
    intro n
    induction n with
    | zero =>
      intro b
      have e : List.replicate 1 ([] : List Char) ++ [b] = [] :: b :: [] := rfl
      rw [e, intercalate_cons_cons, intercalate_single, List.nil_append]
      rfl
    | succ n ih =>
      intro b
      have e1 : List.replicate (n + 2) ([] : List Char) ++ [b]
          = [] :: ([] :: (List.replicate n [] ++ [b])) := by
        conv_lhs => rw [List.replicate_succ, List.replicate_succ,
          List.cons_append, List.cons_append]
      have e2 : (([] : List Char) :: (List.replicate n [] ++ [b]))
          = List.replicate (n + 1) [] ++ [b] := by
        conv_rhs => rw [List.replicate_succ, List.cons_append]
      rw [e1, intercalate_cons_cons, List.nil_append, e2, ih b]
      simp [List.replicate_succ]
  have hone : ∀ (a b : List Char) (k : Nat), '\n' ∉ a → '\n' ∉ b →
      pyStrip a ≠ [] → pyStrip b ≠ [] →
      pyStrip (collapseNl3 (removeConsecutiveDuplicates
          (a ++ List.replicate (k + 3) '\n' ++ b)))
        = pyStrip a ++ '\n' :: '\n' :: pyStrip b := by
    intro a b k hna hnb hpa hpb
    have e1 : a :: (List.replicate (k + 2) ([] : List Char) ++ [b])
        = a :: ([] :: (List.replicate (k + 1) [] ++ [b])) := by
      conv_lhs => rw [List.replicate_succ, List.cons_append]
    have e2 : (([] : List Char) :: (List.replicate (k + 1) [] ++ [b]))
        = List.replicate (k + 2) [] ++ [b] := by
      conv_rhs => rw [List.replicate_succ, List.cons_append]
    have hform : a ++ List.replicate (k + 3) '\n' ++ b
        = ['\n'].intercalate (a :: (List.replicate (k + 2) [] ++ [b])) := by
      rw [e1, intercalate_cons_cons, e2, hinter (k + 1) b, List.append_assoc,
        show List.replicate (k + 3) '\n' = '\n' :: List.replicate (k + 1 + 1) '\n'
          from rfl,
        List.cons_append]
    have hsplit : (a ++ List.replicate (k + 3) '\n' ++ b).splitOn '\n'
        = a :: (List.replicate (k + 2) [] ++ [b]) := by
      rw [hform]
      refine List.splitOn_intercalate _ '\n' ?_ (by simp)
      intro l hl
      rcases List.mem_cons.mp hl with rfl | hl
      · exact hna
      · rcases List.mem_append.mp hl with hl | hl
        · rw [List.eq_of_mem_replicate hl]
          simp
        · rw [List.mem_singleton.mp hl]
          exact hnb
    have hrcd : rcdGo none ((a ++ List.replicate (k + 3) '\n' ++ b).splitOn '\n')
        = [pyStrip a, [], pyStrip b] := by
      rw [hsplit, rcdGo_none_keep _ hpa]
      have e3 : List.replicate (k + 2) ([] : List Char) ++ [b]
          = [] :: (List.replicate (k + 1) [] ++ [b]) := by
        conv_lhs => rw [List.replicate_succ, List.cons_append]
      rw [e3, rcdGo_blank_keep _ pyStrip_nil hpa, rcdGo_blanks,
        rcdGo_some_keep _ hpb (isDuplicateLine_nil_right _ hpb)]
      rfl
    rw [removeConsecutiveDuplicates, hrcd, intercalate_cons_cons,
      intercalate_cons_cons, intercalate_single, List.nil_append]
    have hnsa : '\n' ∉ pyStrip a := fun h => hna (pyStrip_mem h)
    have hnsb : '\n' ∉ pyStrip b := fun h => hnb (pyStrip_mem h)
    rw [collapseNl3_append_noNl hnsa, collapseNl3_two_nl hnsb]
    refine pyStrip_eq_self ?_ ?_
    · intro c hc
      cases hsa : pyStrip a with
      | nil => exact absurd hsa hpa
      | cons x xs =>
        rw [hsa] at hc
        have hcx : x = c := by simpa using hc
        subst hcx
        exact pyStrip_head_not_ws a x (by rw [hsa]; rfl)
    · intro c hc
      rw [List.getLast?_append_of_ne_nil (pyStrip a)
          (show ('\n' :: '\n' :: pyStrip b) ≠ [] by simp),
        show ('\n' :: '\n' :: pyStrip b) = ['\n', '\n'] ++ pyStrip b from rfl,
        List.getLast?_append_of_ne_nil ['\n', '\n'] hpb] at hc
      exact pyStrip_getLast_not_ws b c hc
  refine ⟨hone, ?_, fun t => pyStrip_idem _, ?_⟩
  · intro t hsub
    obtain ⟨u, v, huv⟩ :=
      pyStrip_infix (collapseNl3 (removeConsecutiveDuplicates t))
    have h2 : SubSeg ['\n', '\n', '\n']
        (collapseNl3 (removeConsecutiveDuplicates t)) := by
      rw [huv]
      exact SubSeg_embed hsub u v
    have h3 := (containsSeq_iff _ _).mpr h2
    rw [collapseNl3_noTriple] at h3
    exact Bool.false_ne_true h3
  · have h := hone ("a".data) ("b".data) 1 (by decide) (by decide)
      (by decide) (by decide)
    have e : "a\n\n\n\nb".data
        = "a".data ++ List.replicate (1 + 3) '\n' ++ "b".data := by decide
    rw [e, h]
    decide

theorem blankCollapse_spec_witness :
    ('\n' ∉ "大家好".data) ∧ ('\n' ∉ "今天".data)
    ∧ pyStrip ("大家好".data) ≠ [] ∧ pyStrip ("今天".data) ≠ []
    ∧ pyStrip (collapseNl3 (removeConsecutiveDuplicates
        ("大家好".data ++ List.replicate 3 '\n' ++ "今天".data)))
      = pyStrip ("大家好".data) ++ '\n' :: '\n' :: pyStrip ("今天".data) :=
  ⟨by decide, by decide, by decide, by decide,
    blankCollapse_spec.1 ("大家好".data) ("今天".data) 0 (by decide) (by decide)
      (by decide) (by decide)⟩

/-! ## C8: the normalizer never reorders lines -/

/-- Greedy subsequence test. -/
def subseqB : List Char → List Char → Bool
  | [], _ => true
  | _ :: _, [] => false
  | a :: as, b :: bs => if a = b then subseqB as bs else subseqB (a :: as) bs

theorem subseqB_of_sublist : ∀ {b a : List Char},
    List.Sublist a b → subseqB a b = true := by
  intro b
  induction b with
  | nil =>
    intro a h
    rw [List.sublist_nil.mp h]
    rfl
  | cons y ys ih =>
    intro a h
    cases a with
    | nil => rfl
    | cons x xs =>
      simp only [subseqB]
      by_cases hxy : x = y
      · rw [if_pos hxy]
        subst hxy
        cases h with
        | cons _ h' =>
          exact ih ((List.sublist_cons_self x xs).trans h')
        | cons₂ _ h' => exact ih h'
      · rw [if_neg hxy]
        cases h with
        | cons _ h' => exact ih h'
        | cons₂ _ h' => exact absurd rfl hxy

theorem sublist_of_subseqB : ∀ {b a : List Char},
    subseqB a b = true → List.Sublist a b := by
  intro b
  induction b with
  | nil =>
    intro a h
    cases a with
    | nil => exact List.Sublist.refl _
    | cons x xs => simp [subseqB] at h
  | cons y ys ih =>
    intro a h
    cases a with
    | nil => exact List.nil_sublist _
    | cons x xs =>
      simp only [subseqB] at h
      by_cases hxy : x = y
      · rw [if_pos hxy] at h
        subst hxy
        exact (ih h).cons₂ x
      · rw [if_neg hxy] at h
        exact (ih h).cons y

/-- Pointwise match of an output line list against a selection of input
lines: equal length and each output line a subsequence of its source. -/
def derivMatchB : List (List Char) → List (List Char) → Bool
  | [], [] => true
  | _ :: _, [] => false
  | [], _ :: _ => false
  | o :: os, i :: is => subseqB o i && derivMatchB os is

/-- The output line sequence is obtained from the input line sequence by
deleting whole lines and deleting characters within kept lines, in
order. -/
def linesDerivB (out inp : List (List Char)) : Bool :=
  inp.sublists.any (fun sel => derivMatchB out sel)

theorem derivMatchB_of_forall₂ {out sel : List (List Char)}
    (h : List.Forall₂ (fun o i => List.Sublist o i) out sel) :
    derivMatchB out sel = true := by
  induction h with
  | nil => rfl
  | cons h₁ _ ih =>
    simp only [derivMatchB, Bool.and_eq_true]
    exact ⟨subseqB_of_sublist h₁, ih⟩

theorem linesDerivB_intro {out sel inp : List (List Char)}
    (hsel : List.Sublist sel inp)
    (h : List.Forall₂ (fun o i => List.Sublist o i) out sel) :
    linesDerivB out inp = true := by
  rw [linesDerivB, List.any_eq_true]
  exact ⟨sel, List.mem_sublists.mpr hsel, derivMatchB_of_forall₂ h⟩

theorem rcdGo_deriv : ∀ (L : List (List Char)) (prev : Option (List Char)),
    ∃ sel, List.Sublist sel L ∧
      List.Forall₂ (fun o i => List.Sublist o i) (rcdGo prev L) sel := by
  intro L
  induction L with
  | nil => exact fun prev => ⟨[], List.nil_sublist _, List.Forall₂.nil⟩
  | cons l ls ih =>
    intro prev
    by_cases hl : pyStrip l = []
    · match prev with
      | some [] =>
        obtain ⟨sel, h1, h2⟩ := ih (some [])
        exact ⟨sel, h1.cons l, by rw [rcdGo_blank_skip ls hl]; exact h2⟩
      | none =>
        obtain ⟨sel, h1, h2⟩ := ih (some [])
        refine ⟨l :: sel, h1.cons₂ l, ?_⟩
        rw [rcdGo_nil_blank_keep ls hl]
        exact List.Forall₂.cons (List.nil_sublist l) h2
      | some (c :: cs) =>
        obtain ⟨sel, h1, h2⟩ := ih (some [])
        refine ⟨l :: sel, h1.cons₂ l, ?_⟩
        rw [rcdGo_blank_keep ls hl (List.cons_ne_nil c cs)]
        exact List.Forall₂.cons (List.nil_sublist l) h2
    · match prev with
      | none =>
        obtain ⟨sel, h1, h2⟩ := ih (some (pyStrip l))
        refine ⟨l :: sel, h1.cons₂ l, ?_⟩
        rw [rcdGo_none_keep ls hl]
        exact List.Forall₂.cons (pyStrip_sublist l) h2
      | some pl =>
        cases hd : isDuplicateLine (pyStrip l) pl (9/10)
        · obtain ⟨sel, h1, h2⟩ := ih (some (pyStrip l))
          refine ⟨l :: sel, h1.cons₂ l, ?_⟩
          rw [rcdGo_some_keep ls hl hd]
          exact List.Forall₂.cons (pyStrip_sublist l) h2
        · obtain ⟨sel, h1, h2⟩ := ih (some pl)
          exact ⟨sel, h1.cons l, by rw [rcdGo_some_dup ls hl hd]; exact h2⟩

theorem rcdGo_mem_shape : ∀ (L : List (List Char)) (prev : Option (List Char))
    (m : List Char), m ∈ rcdGo prev L → m = [] ∨ ∃ l ∈ L, m = pyStrip l := by
  intro L
  induction L with
  | nil => intro prev m hm; cases hm
  | cons l ls ih =>
    intro prev m hm
    have step : ∀ q, m ∈ rcdGo q ls → m = [] ∨ ∃ x ∈ l :: ls, m = pyStrip x := by
      intro q hq
      rcases ih q m hq with h | ⟨x, hx, hmx⟩
      · exact Or.inl h
      · exact Or.inr ⟨x, List.mem_cons_of_mem _ hx, hmx⟩
    by_cases hl : pyStrip l = []
    · match prev with
      | some [] =>
        rw [rcdGo_blank_skip ls hl] at hm
        exact step _ hm
      | none =>
        rw [rcdGo_nil_blank_keep ls hl] at hm
        rcases List.mem_cons.mp hm with rfl | hm
        · exact Or.inl rfl
        · exact step _ hm
      | some (c :: cs) =>
        rw [rcdGo_blank_keep ls hl (List.cons_ne_nil c cs)] at hm
        rcases List.mem_cons.mp hm with rfl | hm
        · exact Or.inl rfl
        · exact step _ hm
    · match prev with
      | none =>
        rw [rcdGo_none_keep ls hl] at hm
        rcases List.mem_cons.mp hm with rfl | hm
        · exact Or.inr ⟨l, List.mem_cons_self _ _, rfl⟩
        · exact step _ hm
      | some pl =>
        cases hd : isDuplicateLine (pyStrip l) pl (9/10)
        · rw [rcdGo_some_keep ls hl hd] at hm
          rcases List.mem_cons.mp hm with rfl | hm
          · exact Or.inr ⟨l, List.mem_cons_self _ _, rfl⟩
          · exact step _ hm
        · rw [rcdGo_some_dup ls hl hd] at hm
          exact step _ hm

theorem splitOn_rcd (t : List Char) :
    (removeConsecutiveDuplicates t).splitOn '\n'
      = if rcdGo none (t.splitOn '\n') = [] then [[]]
        else rcdGo none (t.splitOn '\n') := by
  rw [removeConsecutiveDuplicates]
  cases hM : rcdGo none (t.splitOn '\n') with
  | nil => rw [if_pos rfl, intercalate_nil, List.splitOn_nil]
  | cons m ms =>
    rw [if_neg (List.cons_ne_nil m ms)]
    refine List.splitOn_intercalate _ '\n' ?_ (List.cons_ne_nil m ms)
    intro l hl
    rcases rcdGo_mem_shape (t.splitOn '\n') none l (hM ▸ hl) with rfl | ⟨x, hx, rfl⟩
    · simp
    · exact fun hmem => mem_splitOn_not_mem t x hx (pyStrip_mem hmem)

/-- C8 (amended): the line-level deduplication operations never reorder
lines.  `clean_repeated_lines` returns a sublist of its input (kept lines
verbatim, in order); the line sequence of `_remove_consecutive_duplicates`
is obtained from the input line sequence by deleting whole lines and
deleting characters (whitespace trimming) within kept lines, in order.
(`_clean_subtitle_markers` is excluded: a boilerplate match can span a
newline and merge two lines, see the counterexample.) -/
theorem normalizer_line_order :
    (∀ ls : List (List Char), List.Sublist (clean_repeated_lines ls) ls)
    ∧ (∀ t : List Char,
        linesDerivB ((removeConsecutiveDuplicates t).splitOn '\n')
          (t.splitOn '\n') = true) := by
  refine ⟨fun ls => cleanGo_sublist none ls, fun t => ?_⟩
  rw [splitOn_rcd]
  cases hM : rcdGo none (t.splitOn '\n') with
  | nil =>
    rw [if_pos rfl]
    cases hS : t.splitOn '\n' with
    | nil => exact absurd hS (splitOn_ne_nil t)
    | cons s ss =>
      exact linesDerivB_intro ((List.nil_sublist ss).cons₂ s)
        (List.Forall₂.cons (List.nil_sublist s) List.Forall₂.nil)
  | cons m ms =>
    rw [if_neg (List.cons_ne_nil m ms)]
    obtain ⟨sel, h1, h2⟩ := rcdGo_deriv (t.splitOn '\n') none
    rw [hM] at h2
    exact linesDerivB_intro h1 h2

/-- C8 counterexample: the claim fails for `_clean_subtitle_markers`: the
pattern `字幕由\s*Amara\.org\s*社群提供` matches across a newline
(`\s*` matches it), deleting the newline and merging the two lines, so
the output line `xy` is not derivable from any input line by substring
deletion alone. -/
theorem cleanSubtitleMarkers_merges_lines :
    cleanSubtitleMarkers ("x字幕由\nAmara.org社群提供y".data) = "xy".data
    ∧ linesDerivB (("xy".data).splitOn '\n')
        (("x字幕由\nAmara.org社群提供y".data).splitOn '\n') = false := by
  constructor
  · decide
  · decide

/-! ## C7: towards idempotence of the save pipeline

Occurrence characterizations of the boilerplate patterns.  Every pattern
except the first is single-line: it has a match in `s` iff a newline-free
witness block occurs as a contiguous segment of `s`. -/

/-- Whether the pattern matches at some position of the text
(Python `re.search` success). -/
def hasMatchB (p : List PElem) : List Char → Bool
  | [] => (matchAt p []).isSome
  | c :: cs => (matchAt p (c :: cs)).isSome || hasMatchB p cs

theorem hasMatchB_iff (p : List PElem) (s : List Char) :
    hasMatchB p s = true ↔ ∃ u v, s = u ++ v ∧ (matchAt p v).isSome := by
  induction s with
  | nil =>
    simp only [hasMatchB]
    constructor
    · intro h
      exact ⟨[], [], rfl, h⟩
    · rintro ⟨u, v, huv, hv⟩
      have hu : u = [] := by cases u <;> simp_all
      subst hu
      simpa using huv ▸ hv
  | cons c cs ih =>
    simp only [hasMatchB, Bool.or_eq_true, ih]
    constructor
    · rintro (h | ⟨u, v, rfl, hv⟩)
      · exact ⟨[], c :: cs, rfl, h⟩
      · exact ⟨c :: u, v, rfl, hv⟩
    · rintro ⟨u, v, huv, hv⟩
      cases u with
      | nil =>
        simp only [List.nil_append] at huv
        exact Or.inl (huv ▸ hv)
      | cons d u' =>
        simp only [List.cons_append, List.cons.injEq] at huv
        exact Or.inr ⟨u', v, huv.2, hv⟩

theorem hasMatchB_of_decomp {p : List PElem} {s u v : List Char}
    (huv : s = u ++ v) (hv : (matchAt p v).isSome) : hasMatchB p s = true :=
  (hasMatchB_iff p s).mpr ⟨u, v, huv, hv⟩

/-- A newline-free pattern occurring in an intercalation of newline-free
lines occurs in a single line. -/
theorem SubSeg_nlfree_split {pat m : List Char} {r : List Char}
    (hpat : '\n' ∉ pat) (h : SubSeg pat (m ++ '\n' :: r)) :
    SubSeg pat m ∨ SubSeg pat r := by
  obtain ⟨u, v, huv⟩ := h
  have huv' : u ++ (pat ++ v) = m ++ '\n' :: r := by
    rw [huv, List.append_assoc]
  rcases List.append_eq_append_iff.mp huv' with ⟨a, hm, ha⟩ | ⟨b, hu, hb⟩
  · rcases List.append_eq_append_iff.mp ha with ⟨a2, ha2, hv⟩ | ⟨c2, hp2, hc2⟩
    · exact Or.inl ⟨u, a2, by rw [hm, ha2, List.append_assoc]⟩
    · cases c2 with
      | nil =>
        rw [List.append_nil] at hp2
        exact Or.inl ⟨u, [], by rw [hm, ← hp2, List.append_nil]⟩
      | cons e c2' =>
        exfalso
        simp only [List.cons_append, List.cons.injEq] at hc2
        exact hpat (hp2 ▸ List.mem_append_right a (hc2.1 ▸ List.mem_cons_self _ _))
  · cases b with
    | nil =>
      simp only [List.nil_append] at hb
      cases pat with
      | nil => exact Or.inl ⟨[], m, by simp⟩
      | cons e ps =>
        exfalso
        simp only [List.cons_append, List.cons.injEq] at hb
        exact hpat (hb.1 ▸ List.mem_cons_self _ _)
    | cons e b' =>
      simp only [List.cons_append, List.cons.injEq] at hb
      obtain ⟨-, hb2⟩ := hb
      exact Or.inr ⟨b', v, by rw [hb2, List.append_assoc]⟩

/-- Join a list of lines after an initial line: empty, or newline and the
intercalation. -/
def nlJoin : List (List Char) → List Char
  | [] => []
  | K :: Ks => '\n' :: ['\n'].intercalate (K :: Ks)

theorem intercalate_eq_cons (l : List Char) (K : List (List Char)) :
    ['\n'].intercalate (l :: K) = l ++ nlJoin K := by
  cases K with
  | nil => rw [intercalate_single, nlJoin, List.append_nil]
  | cons m ms => rw [intercalate_cons_cons, nlJoin]

theorem SubSeg_nlfree_line {pat : List Char} (hpat : '\n' ∉ pat) :
    ∀ (K : List (List Char)), pat ≠ [] →
    SubSeg pat (['\n'].intercalate K) → ∃ m ∈ K, SubSeg pat m := by
  intro K
  induction K with
  | nil =>
    intro hne h
    obtain ⟨u, v, huv⟩ := h
    rw [intercalate_nil] at huv
    exact absurd (List.append_eq_nil.mp
      (List.append_eq_nil.mp huv.symm).1).2 hne
  | cons m ms ih =>
    intro hne h
    cases ms with
    | nil =>
      rw [intercalate_single] at h
      exact ⟨m, List.mem_cons_self _ _, h⟩
    | cons m' ms' =>
      rw [intercalate_cons_cons] at h
      rcases SubSeg_nlfree_split hpat h with h | h
      · exact ⟨m, List.mem_cons_self _ _, h⟩
      · obtain ⟨x, hx, hs⟩ := ih hne h
        exact ⟨x, List.mem_cons_of_mem _ hx, hs⟩

theorem intercalate_mem_infix {K : List (List Char)} {l : List Char}
    (h : l ∈ K) : ∃ a b, ['\n'].intercalate K = a ++ l ++ b := by
  induction K with
  | nil => cases h
  | cons m ms ih =>
    rcases List.mem_cons.mp h with rfl | h
    · exact ⟨[], nlJoin ms, by rw [intercalate_eq_cons]; rfl⟩
    · obtain ⟨a, b, hab⟩ := ih h
      cases ms with
      | nil => cases h
      | cons m' ms' =>
        refine ⟨m ++ '\n' :: a, b, ?_⟩
        rw [intercalate_cons_cons, hab]
        simp

theorem litCIPrefix_iff (pat t : List Char) :
    litCIPrefix pat t = true ↔ ∃ w s, t = w ++ s ∧ w.map asciiLower = pat := by
  induction pat generalizing t with
  | nil =>
    simp only [litCIPrefix, true_iff]
    exact ⟨[], t, rfl, rfl⟩
  | cons a as ih =>
    cases t with
    | nil =>
      simp only [litCIPrefix]
      constructor
      · intro h; cases h
      · rintro ⟨w, s, hws, hmap⟩
        have hw : w = [] := (List.append_eq_nil.mp hws.symm).1
        subst hw
        exact absurd hmap (by simp)
    | cons b bs =>
      simp only [litCIPrefix, Bool.and_eq_true, decide_eq_true_eq, ih]
      constructor
      · rintro ⟨rfl, w, s, rfl, rfl⟩
        exact ⟨b :: w, s, rfl, rfl⟩
      · rintro ⟨w, s, hws, hmap⟩
        cases w with
        | nil => cases hmap
        | cons c w' =>
          simp only [List.cons_append, List.cons.injEq] at hws
          simp only [List.map_cons, List.cons.injEq] at hmap
          exact ⟨hws.1 ▸ hmap.1, w', s, hws.2, hmap.2⟩

theorem lazyUpto_isSome_iff (stop r : List Char) :
    (lazyUpto stop r).isSome = true ↔
      ∃ g y, r = g ++ stop ++ y ∧ '\n' ∉ g := by
  constructor
  · intro h
    induction r with
    | nil =>
      rw [lazyUpto] at h
      by_cases hp : litPrefix stop [] = true
      · obtain ⟨s, hs⟩ := (litPrefix_iff _ _).mp hp
        exact ⟨[], s, by simpa using hs, by simp⟩
      · rw [if_neg hp] at h; cases h
    | cons c cs ih =>
      rw [lazyUpto] at h
      by_cases hp : litPrefix stop (c :: cs) = true
      · obtain ⟨s, hs⟩ := (litPrefix_iff _ _).mp hp
        exact ⟨[], s, by simpa using hs, by simp⟩
      · rw [if_neg hp] at h
        by_cases hc : c = '\n'
        · rw [if_pos hc] at h; cases h
        · rw [if_neg hc] at h
          obtain ⟨g, y, hgy, hg⟩ := ih h
          refine ⟨c :: g, y, by rw [hgy]; simp, ?_⟩
          intro hmem
          rcases List.mem_cons.mp hmem with h' | h'
          · exact hc h'.symm
          · exact hg h'
  · rintro ⟨g, y, rfl, hg⟩
    induction g with
    | nil =>
      cases stop with
      | nil => cases y <;> simp [lazyUpto, litPrefix]
      | cons a as =>
        rw [List.nil_append, List.cons_append, lazyUpto,
          if_pos ((litPrefix_iff _ _).mpr ⟨y, by simp⟩)]
        rfl
    | cons d g' ih =>
      have hd : d ≠ '\n' := fun h => hg (h ▸ List.mem_cons_self _ _)
      have hg' : '\n' ∉ g' := fun h => hg (List.mem_cons_of_mem _ h)
      rw [List.cons_append, List.cons_append, lazyUpto]
      by_cases hp : litPrefix stop (d :: (g' ++ stop ++ y)) = true
      · rw [if_pos hp]; rfl
      · rw [if_neg hp, if_neg hd]
        exact ih hg'

theorem greedyUpto_isSome_iff {stop : List Char} (hstop : stop ≠ [])
    (hnl : '\n' ∉ stop) (r : List Char) :
    (greedyUpto stop r).isSome = true ↔
      ∃ g y, r = g ++ stop ++ y ∧ '\n' ∉ g := by
  constructor
  · intro h
    induction r with
    | nil =>
      rw [greedyUpto] at h
      by_cases hp : litPrefix stop [] = true
      · obtain ⟨s, hs⟩ := (litPrefix_iff _ _).mp hp
        exact absurd (List.append_eq_nil.mp hs.symm).1 hstop
      · rw [if_neg hp] at h; cases h
    | cons c cs ih =>
      by_cases hc : c = '\n'
      · rw [greedyUpto, if_pos hc] at h
        by_cases hp : litPrefix stop (c :: cs) = true
        · obtain ⟨s, hs⟩ := (litPrefix_iff _ _).mp hp
          cases stop with
          | nil => exact absurd rfl hstop
          | cons a as =>
            simp only [List.cons_append, List.cons.injEq] at hs
            have ha : a = '\n' := hs.1.symm.trans hc
            exact absurd (by rw [← ha]; exact List.mem_cons_self a as) hnl
        · rw [if_neg hp] at h; cases h
      · rw [greedyUpto, if_neg hc] at h
        rcases hgc : greedyUpto stop cs with - | r'
        · rw [hgc] at h
          by_cases hp : litPrefix stop (c :: cs) = true
          · obtain ⟨s, hs⟩ := (litPrefix_iff _ _).mp hp
            exact ⟨[], s, by simpa using hs, by simp⟩
          · rw [if_neg hp] at h; cases h
        · obtain ⟨g, y, hgy, hg⟩ := ih (by rw [hgc]; rfl)
          refine ⟨c :: g, y, by rw [hgy]; simp, ?_⟩
          intro hmem
          rcases List.mem_cons.mp hmem with h' | h'
          · exact hc h'.symm
          · exact hg h'
  · rintro ⟨g, y, rfl, hg⟩
    induction g with
    | nil =>
      cases stop with
      | nil => exact absurd rfl hstop
      | cons a as =>
        have ha : a ≠ '\n' := fun h => hnl (h ▸ List.mem_cons_self a as)
        rw [List.nil_append, List.cons_append, greedyUpto, if_neg ha]
        rcases h' : greedyUpto (a :: as) (as ++ y) with - | r'
        · rw [if_pos ((litPrefix_iff _ _).mpr ⟨y, by simp⟩)]; rfl
        · rfl
    | cons d g' ih =>
      have hd : d ≠ '\n' := fun h => hg (h ▸ List.mem_cons_self _ _)
      have hg' : '\n' ∉ g' := fun h => hg (List.mem_cons_of_mem _ h)
      have hsome := ih hg'
      rw [List.cons_append, List.cons_append, greedyUpto, if_neg hd]
      rcases h' : greedyUpto stop (g' ++ stop ++ y) with - | r'
      · rw [h'] at hsome; cases hsome
      · rfl

theorem matchAt_litHead_isSome {h : List Char} {es : List PElem}
    {v : List Char} :
    (matchAt (PElem.lit h :: es) v).isSome = true ↔
      litPrefix h v = true ∧ (matchAt es (v.drop h.length)).isSome = true := by
  by_cases hp : litPrefix h v = true
  · simp [matchAt, elemMatch, hp]
  · simp [matchAt, elemMatch, hp]

theorem matchAt_litCIHead_isSome {h : List Char} {es : List PElem}
    {v : List Char} :
    (matchAt (PElem.litCI h :: es) v).isSome = true ↔
      litCIPrefix h v = true ∧ (matchAt es (v.drop h.length)).isSome = true := by
  by_cases hp : litCIPrefix h v = true
  · simp [matchAt, elemMatch, hp]
  · simp [matchAt, elemMatch, hp]

theorem isSome_bind_matchAt_nil (o : Option (List Char)) :
    (o.bind (matchAt [])).isSome = o.isSome := by
  cases o <;> rfl

theorem isSome_bind_matchAt_rest (o : Option (List Char)) :
    (o.bind (matchAt [PElem.restOfLine])).isSome = o.isSome := by
  cases o <;> simp [matchAt, elemMatch]

theorem matchAt_lazy_nil_isSome (h₂ r : List Char) :
    (matchAt [PElem.lazy h₂] r).isSome = (lazyUpto h₂ r).isSome :=
  isSome_bind_matchAt_nil _

theorem matchAt_lazy_rest_isSome (h₂ r : List Char) :
    (matchAt [PElem.lazy h₂, PElem.restOfLine] r).isSome
      = (lazyUpto h₂ r).isSome :=
  isSome_bind_matchAt_rest _

theorem matchAt_greedy_nil_isSome (h₂ r : List Char) :
    (matchAt [PElem.greedy h₂] r).isSome = (greedyUpto h₂ r).isSome :=
  isSome_bind_matchAt_nil _

theorem hasMatchB_lit_iff (h s : List Char) :
    hasMatchB [PElem.lit h] s = true ↔ SubSeg h s := by
  rw [hasMatchB_iff]
  constructor
  · rintro ⟨u, v, rfl, hv⟩
    obtain ⟨hp, -⟩ := matchAt_litHead_isSome.mp hv
    obtain ⟨w, hw⟩ := (litPrefix_iff _ _).mp hp
    exact ⟨u, w, by rw [hw, List.append_assoc]⟩
  · rintro ⟨u, w, rfl⟩
    refine ⟨u, h ++ w, by simp, ?_⟩
    exact matchAt_litHead_isSome.mpr
      ⟨(litPrefix_iff _ _).mpr ⟨w, rfl⟩, by simp [matchAt]⟩

theorem hasMatchB_lit_rest_iff (h s : List Char) :
    hasMatchB [PElem.lit h, PElem.restOfLine] s = true ↔ SubSeg h s := by
  rw [hasMatchB_iff]
  constructor
  · rintro ⟨u, v, rfl, hv⟩
    obtain ⟨hp, -⟩ := matchAt_litHead_isSome.mp hv
    obtain ⟨w, hw⟩ := (litPrefix_iff _ _).mp hp
    exact ⟨u, w, by rw [hw, List.append_assoc]⟩
  · rintro ⟨u, w, rfl⟩
    refine ⟨u, h ++ w, by simp, ?_⟩
    refine matchAt_litHead_isSome.mpr
      ⟨(litPrefix_iff _ _).mpr ⟨w, rfl⟩, ?_⟩
    simp [matchAt, elemMatch]

theorem hasMatchB_litCI_rest_iff (h s : List Char) :
    hasMatchB [PElem.litCI h, PElem.restOfLine] s = true ↔
      ∃ w, SubSeg w s ∧ w.map asciiLower = h := by
  rw [hasMatchB_iff]
  constructor
  · rintro ⟨u, v, rfl, hv⟩
    obtain ⟨hp, -⟩ := matchAt_litCIHead_isSome.mp hv
    obtain ⟨w, s', hws, hmap⟩ := (litCIPrefix_iff _ _).mp hp
    exact ⟨w, ⟨u, s', by rw [hws, List.append_assoc]⟩, hmap⟩
  · rintro ⟨w, ⟨u, y, rfl⟩, hmap⟩
    refine ⟨u, w ++ y, by simp, ?_⟩
    refine matchAt_litCIHead_isSome.mpr
      ⟨(litCIPrefix_iff _ _).mpr ⟨w, y, rfl, hmap⟩, ?_⟩
    simp [matchAt, elemMatch]

theorem hasMatchB_lit_lazy_iff (h₁ h₂ s : List Char) :
    hasMatchB [PElem.lit h₁, PElem.lazy h₂] s = true ↔
      ∃ g, SubSeg (h₁ ++ g ++ h₂) s ∧ '\n' ∉ g := by
  rw [hasMatchB_iff]
  constructor
  · rintro ⟨u, v, rfl, hv⟩
    obtain ⟨hp, hlz⟩ := matchAt_litHead_isSome.mp hv
    obtain ⟨r, hr⟩ := (litPrefix_iff _ _).mp hp
    rw [hr, List.drop_left, matchAt_lazy_nil_isSome] at hlz
    obtain ⟨g, y, hgy, hg⟩ := (lazyUpto_isSome_iff _ _).mp hlz
    exact ⟨g, ⟨u, y, by rw [hr, hgy]; simp⟩, hg⟩
  · rintro ⟨g, ⟨u, y, rfl⟩, hg⟩
    refine ⟨u, (h₁ ++ g ++ h₂) ++ y, by simp, ?_⟩
    refine matchAt_litHead_isSome.mpr
      ⟨(litPrefix_iff _ _).mpr ⟨g ++ h₂ ++ y, by simp⟩, ?_⟩
    rw [show (h₁ ++ g ++ h₂) ++ y = h₁ ++ (g ++ h₂ ++ y) by simp,
      List.drop_left, matchAt_lazy_nil_isSome]
    exact (lazyUpto_isSome_iff _ _).mpr ⟨g, y, rfl, hg⟩

theorem hasMatchB_lit_lazy_rest_iff (h₁ h₂ s : List Char) :
    hasMatchB [PElem.lit h₁, PElem.lazy h₂, PElem.restOfLine] s = true ↔
      ∃ g, SubSeg (h₁ ++ g ++ h₂) s ∧ '\n' ∉ g := by
  rw [hasMatchB_iff]
  constructor
  · rintro ⟨u, v, rfl, hv⟩
    obtain ⟨hp, hlz⟩ := matchAt_litHead_isSome.mp hv
    obtain ⟨r, hr⟩ := (litPrefix_iff _ _).mp hp
    rw [hr, List.drop_left, matchAt_lazy_rest_isSome] at hlz
    obtain ⟨g, y, hgy, hg⟩ := (lazyUpto_isSome_iff _ _).mp hlz
    exact ⟨g, ⟨u, y, by rw [hr, hgy]; simp⟩, hg⟩
  · rintro ⟨g, ⟨u, y, rfl⟩, hg⟩
    refine ⟨u, (h₁ ++ g ++ h₂) ++ y, by simp, ?_⟩
    refine matchAt_litHead_isSome.mpr
      ⟨(litPrefix_iff _ _).mpr ⟨g ++ h₂ ++ y, by simp⟩, ?_⟩
    rw [show (h₁ ++ g ++ h₂) ++ y = h₁ ++ (g ++ h₂ ++ y) by simp,
      List.drop_left, matchAt_lazy_rest_isSome]
    exact (lazyUpto_isSome_iff _ _).mpr ⟨g, y, rfl, hg⟩

theorem hasMatchB_lit_greedy_iff (h₁ : List Char) {h₂ : List Char}
    (hne : h₂ ≠ []) (hnl : '\n' ∉ h₂) (s : List Char) :
    hasMatchB [PElem.lit h₁, PElem.greedy h₂] s = true ↔
      ∃ g, SubSeg (h₁ ++ g ++ h₂) s ∧ '\n' ∉ g := by
  rw [hasMatchB_iff]
  constructor
  · rintro ⟨u, v, rfl, hv⟩
    obtain ⟨hp, hgr⟩ := matchAt_litHead_isSome.mp hv
    obtain ⟨r, hr⟩ := (litPrefix_iff _ _).mp hp
    rw [hr, List.drop_left, matchAt_greedy_nil_isSome] at hgr
    obtain ⟨g, y, hgy, hg⟩ := (greedyUpto_isSome_iff hne hnl _).mp hgr
    exact ⟨g, ⟨u, y, by rw [hr, hgy]; simp⟩, hg⟩
  · rintro ⟨g, ⟨u, y, rfl⟩, hg⟩
    refine ⟨u, (h₁ ++ g ++ h₂) ++ y, by simp, ?_⟩
    refine matchAt_litHead_isSome.mpr
      ⟨(litPrefix_iff _ _).mpr ⟨g ++ h₂ ++ y, by simp⟩, ?_⟩
    rw [show (h₁ ++ g ++ h₂) ++ y = h₁ ++ (g ++ h₂ ++ y) by simp,
      List.drop_left, matchAt_greedy_nil_isSome]
    exact (greedyUpto_isSome_iff hne hnl _).mpr ⟨g, y, rfl, hg⟩

/-- A contiguous witness block for a match of `p`: non-empty,
newline-free, and forcing a match wherever it occurs. -/
def CoreFor (p : List PElem) (core : List Char) : Prop :=
  core ≠ [] ∧ '\n' ∉ core ∧ ∀ s, SubSeg core s → hasMatchB p s = true

theorem SubSeg_extend {c s a b : List Char} (h : SubSeg c s) :
    SubSeg c (a ++ s ++ b) := by
  obtain ⟨u, v, rfl⟩ := h
  exact ⟨a ++ u, v ++ b, by simp⟩

theorem coreFor_of_seg_iff {p : List PElem} {h : List Char}
    (hiff : ∀ s, hasMatchB p s = true ↔ SubSeg h s)
    (hne : h ≠ []) (hnl : '\n' ∉ h) {s} (hm : hasMatchB p s = true) :
    ∃ core, SubSeg core s ∧ CoreFor p core :=
  ⟨h, (hiff s).mp hm, hne, hnl, fun s' hs' => (hiff s').mpr hs'⟩

theorem coreFor_of_gap_iff {p : List PElem} {h₁ h₂ : List Char}
    (hiff : ∀ s, hasMatchB p s = true ↔
      ∃ g, SubSeg (h₁ ++ g ++ h₂) s ∧ '\n' ∉ g)
    (hne : h₁ ≠ []) (hnl1 : '\n' ∉ h₁) (hnl2 : '\n' ∉ h₂) {s}
    (hm : hasMatchB p s = true) :
    ∃ core, SubSeg core s ∧ CoreFor p core := by
  obtain ⟨g, hsub, hg⟩ := (hiff s).mp hm
  refine ⟨h₁ ++ g ++ h₂, hsub, ?_, ?_,
    fun s' hs' => (hiff s').mpr ⟨g, hs', hg⟩⟩
  · cases h₁ with
    | nil => exact absurd rfl hne
    | cons a as => simp
  · simp only [List.append_assoc, List.mem_append]
    rintro (h' | h' | h')
    · exact hnl1 h'
    · exact hg h'
    · exact hnl2 h'

theorem coreFor_litCI_rest {h : List Char} (hne : h ≠ []) (hnl : '\n' ∉ h)
    {s} (hm : hasMatchB [PElem.litCI h, PElem.restOfLine] s = true) :
    ∃ core, SubSeg core s ∧ CoreFor [PElem.litCI h, PElem.restOfLine] core := by
  obtain ⟨w, hsub, hmap⟩ := (hasMatchB_litCI_rest_iff h s).mp hm
  refine ⟨w, hsub, ?_, ?_,
    fun s' hs' => (hasMatchB_litCI_rest_iff h s').mpr ⟨w, hs', hmap⟩⟩
  · intro hw
    exact hne (by rw [← hmap, hw]; rfl)
  · intro hmem
    have : asciiLower '\n' ∈ List.map asciiLower w :=
      List.mem_map_of_mem asciiLower hmem
    rw [hmap, show asciiLower '\n' = '\n' from by decide] at this
    exact hnl this

theorem singleLine_core :
    ∀ p ∈ boilerPatterns.drop 1, ∀ s : List Char,
      hasMatchB p s = true → ∃ core, SubSeg core s ∧ CoreFor p core := by
  intro p hp
  fin_cases hp
  · exact fun s =>
      coreFor_of_gap_iff (hasMatchB_lit_lazy_iff _ _)
        (by decide) (by decide) (by decide)
  · exact fun s =>
      coreFor_of_gap_iff (hasMatchB_lit_lazy_rest_iff _ _)
        (by decide) (by decide) (by decide)
  · exact fun s =>
      coreFor_of_seg_iff (hasMatchB_lit_rest_iff _) (by decide) (by decide)
  · exact fun s => coreFor_litCI_rest (by decide) (by decide)
  · exact fun s => coreFor_litCI_rest (by decide) (by decide)
  · exact fun s =>
      coreFor_of_gap_iff (hasMatchB_lit_greedy_iff _ (by decide) (by decide))
        (by decide) (by decide) (by decide)
  · exact fun s =>
      coreFor_of_gap_iff (hasMatchB_lit_greedy_iff _ (by decide) (by decide))
        (by decide) (by decide) (by decide)
  · exact fun s =>
      coreFor_of_seg_iff (hasMatchB_lit_iff _) (by decide) (by decide)
  · exact fun s =>
      coreFor_of_seg_iff (hasMatchB_lit_iff _) (by decide) (by decide)
  · exact fun s =>
      coreFor_of_seg_iff (hasMatchB_lit_iff _) (by decide) (by decide)
  · exact fun s =>
      coreFor_of_seg_iff (hasMatchB_lit_iff _) (by decide) (by decide)
  · exact fun s =>
      coreFor_of_seg_iff (hasMatchB_lit_iff _) (by decide) (by decide)
  · exact fun s =>
      coreFor_of_seg_iff (hasMatchB_lit_iff _) (by decide) (by decide)
  · exact fun s =>
      coreFor_of_seg_iff (hasMatchB_lit_iff _) (by decide) (by decide)

theorem hasMatchB_singleLine_mono :
    ∀ p ∈ boilerPatterns.drop 1, ∀ a s b : List Char,
      hasMatchB p s = true → hasMatchB p (a ++ s ++ b) = true := by
  intro p hp a s b h
  obtain ⟨core, hsub, -, -, hall⟩ := singleLine_core p hp s h
  exact hall _ (SubSeg_extend hsub)

theorem hasMatchB_singleLine_lines :
    ∀ p ∈ boilerPatterns.drop 1, ∀ M : List (List Char),
      hasMatchB p (['\n'].intercalate M) = true →
      ∃ m ∈ M, hasMatchB p m = true := by
  intro p hp M h
  obtain ⟨core, hsub, hne, hnl, hall⟩ := singleLine_core p hp _ h
  obtain ⟨m, hm, hsub'⟩ := SubSeg_nlfree_line hnl M hne hsub
  exact ⟨m, hm, hall m hsub'⟩

/-! ### Pattern 1, `字幕由\s*Amara\.org\s*社群提供`, may cross newlines -/

theorem pySpace_eq_false_of_lower_a {c : Char} (h : asciiLower c = 'a') :
    pySpace c = false := by
  unfold asciiLower at h
  by_cases hc : 'A' ≤ c ∧ c ≤ 'Z'
  · rw [if_pos hc] at h
    have hv : Nat.isValidChar (c.toNat + 32) := by
      have h2 : c.toNat ≤ 90 := hc.2
      exact Or.inl (by omega)
    have ht : (Char.ofNat (c.toNat + 32)).toNat = c.toNat + 32 := by
      unfold Char.ofNat
      rw [dif_pos hv]
      rfl
    have h97 : c.toNat + 32 = 97 := by rw [← ht, h]; rfl
    have h65 : c.toNat = 65 := by omega
    have hne : c ≠ ' ' := by
      intro he
      rw [he] at h65
      exact absurd h65 (by decide)
    simp [pySpace, h65, hne]
  · rw [if_neg hc] at h
    subst h
    decide

theorem dropWhile_all_append {p : Char → Bool} {w : List Char}
    (hw : ∀ c ∈ w, p c = true) (z : List Char) :
    List.dropWhile p (w ++ z) = List.dropWhile p z := by
  induction w with
  | nil => rfl
  | cons c cs ih =>
    rw [List.cons_append, List.dropWhile_cons,
      if_pos (hw c (List.mem_cons_self _ _))]
    exact ih fun d hd => hw d (List.mem_cons_of_mem _ hd)

theorem matchAt_wsStar_cons (es : List PElem) (t : List Char) :
    matchAt (PElem.wsStar :: es) t = matchAt es (t.dropWhile pySpace) := rfl

theorem matchAt_lit_cons {s t : List Char} (es : List PElem)
    (h : litPrefix s t = true) :
    matchAt (PElem.lit s :: es) t = matchAt es (t.drop s.length) := by
  simp [matchAt, elemMatch, h]

theorem matchAt_litCI_cons {s t : List Char} (es : List PElem)
    (h : litCIPrefix s t = true) :
    matchAt (PElem.litCI s :: es) t = matchAt es (t.drop s.length) := by
  simp [matchAt, elemMatch, h]

/-- An occurrence of pattern 1: the two literals and the case-folded
`amara.org` block, separated by (possibly newline-containing) runs of
whitespace. -/
def Occ1 (s : List Char) : Prop :=
  ∃ x w₁ A w₂ y,
    s = x ++ ['字', '幕', '由'] ++ w₁ ++ A ++ w₂ ++
      ['社', '群', '提', '供'] ++ y ∧
    (∀ c ∈ w₁, pySpace c = true) ∧ (∀ c ∈ w₂, pySpace c = true) ∧
    A.map asciiLower = ['a', 'm', 'a', 'r', 'a', '.', 'o', 'r', 'g']

theorem hasMatchB_pat1_iff (s : List Char) :
    hasMatchB [PElem.lit ['字', '幕', '由'], PElem.wsStar,
      PElem.litCI ['a', 'm', 'a', 'r', 'a', '.', 'o', 'r', 'g'],
      PElem.wsStar, PElem.lit ['社', '群', '提', '供']] s = true ↔
    Occ1 s := by
  rw [hasMatchB_iff]
  constructor
  · rintro ⟨x, v, rfl, hv⟩
    obtain ⟨hp1, hv⟩ := matchAt_litHead_isSome.mp hv
    obtain ⟨r1, hr1⟩ := (litPrefix_iff _ _).mp hp1
    rw [hr1, List.drop_left, matchAt_wsStar_cons] at hv
    obtain ⟨hpA, hv⟩ := matchAt_litCIHead_isSome.mp hv
    obtain ⟨A, r3, hr3, hmap⟩ := (litCIPrefix_iff _ _).mp hpA
    have hAlen : A.length = 9 := by
      have := congrArg List.length hmap
      simpa using this
    rw [hr3,
      show (['a', 'm', 'a', 'r', 'a', '.', 'o', 'r', 'g'] : List Char).length
        = A.length by simp [hAlen],
      List.drop_left, matchAt_wsStar_cons] at hv
    obtain ⟨hp2, -⟩ := matchAt_litHead_isSome.mp hv
    obtain ⟨y, hy⟩ := (litPrefix_iff _ _).mp hp2
    have hv' : v = ['字', '幕', '由'] ++ (r1.takeWhile pySpace ++ (A ++
        (r3.takeWhile pySpace ++ (['社', '群', '提', '供'] ++ y)))) := by
      rw [hr1]
      congr 1
      conv_lhs => rw [← List.takeWhile_append_dropWhile pySpace r1]
      rw [hr3]
      congr 1
      congr 1
      conv_lhs => rw [← List.takeWhile_append_dropWhile pySpace r3]
      rw [hy]
    refine ⟨x, r1.takeWhile pySpace, A, r3.takeWhile pySpace, y, ?_,
      fun c hc => List.mem_takeWhile_imp hc,
      fun c hc => List.mem_takeWhile_imp hc, hmap⟩
    rw [hv']
    simp [List.append_assoc]
  · rintro ⟨x, w₁, A, w₂, y, rfl, hw₁, hw₂, hmap⟩
    have hA : A ≠ [] := by
      intro h
      rw [h] at hmap
      cases hmap
    obtain ⟨a₀, A', rfl⟩ := List.exists_cons_of_ne_nil hA
    have ha₀ : asciiLower a₀ = 'a' := by
      have h' := hmap
      simp only [List.map_cons, List.cons.injEq] at h'
      exact h'.1
    have hAlen : (a₀ :: A').length = 9 := by
      have := congrArg List.length hmap
      simpa using this
    refine ⟨x, ['字', '幕', '由'] ++ (w₁ ++ ((a₀ :: A') ++ (w₂ ++
      (['社', '群', '提', '供'] ++ y)))), by simp [List.append_assoc], ?_⟩
    rw [matchAt_lit_cons _ ((litPrefix_iff _ _).mpr ⟨_, rfl⟩),
      List.drop_left, matchAt_wsStar_cons, dropWhile_all_append hw₁,
      List.cons_append, List.dropWhile_cons,
      if_neg (by simp [pySpace_eq_false_of_lower_a ha₀])]
    rw [show a₀ :: (A' ++ (w₂ ++ (['社', '群', '提', '供'] ++ y)))
        = (a₀ :: A') ++ (w₂ ++ (['社', '群', '提', '供'] ++ y)) from rfl,
      matchAt_litCI_cons _ ((litCIPrefix_iff _ _).mpr
        ⟨a₀ :: A', _, rfl, hmap⟩),
      show (['a', 'm', 'a', 'r', 'a', '.', 'o', 'r', 'g'] : List Char).length
        = (a₀ :: A').length by simp [hAlen],
      List.drop_left, matchAt_wsStar_cons, dropWhile_all_append hw₂,
      List.cons_append, List.dropWhile_cons, if_neg (by decide),
      matchAt_lit_cons _ ((litPrefix_iff _ _).mpr ⟨y, by simp⟩)]
    rfl

/-- Partial occurrence: the final whitespace gap and `社群提供`. -/
def OccTail2 (s : List Char) : Prop :=
  ∃ w₂ y, s = w₂ ++ ['社', '群', '提', '供'] ++ y ∧ ∀ c ∈ w₂, pySpace c = true

/-- Partial occurrence: gap, `amara.org` block, gap, `社群提供`. -/
def OccTail1 (s : List Char) : Prop :=
  ∃ w₁ A w₂ y, s = w₁ ++ A ++ w₂ ++ ['社', '群', '提', '供'] ++ y ∧
    (∀ c ∈ w₁, pySpace c = true) ∧ (∀ c ∈ w₂, pySpace c = true) ∧
    A.map asciiLower = ['a', 'm', 'a', 'r', 'a', '.', 'o', 'r', 'g']

theorem nlJoin_cons (l : List Char) (K : List (List Char)) :
    nlJoin (l :: K) = '\n' :: (l ++ nlJoin K) := by
  rw [show nlJoin (l :: K) = '\n' :: ['\n'].intercalate (l :: K) from rfl,
    intercalate_eq_cons]

theorem rdropWhile_decomp (p : Char → Bool) (x : List Char) :
    ∃ t, x = x.rdropWhile p ++ t ∧ ∀ c ∈ t, p c = true := by
  refine ⟨(x.reverse.takeWhile p).reverse, ?_, ?_⟩
  · rw [List.rdropWhile]
    conv_lhs => rw [← List.reverse_reverse x,
      ← List.takeWhile_append_dropWhile p x.reverse]
    rw [List.reverse_append]
  · intro c hc
    exact List.mem_takeWhile_imp (List.mem_reverse.mp hc)

theorem pyStrip_decomp (l : List Char) :
    ∃ u s v, l = u ++ s ++ v ∧ s = pyStrip l ∧
      (∀ c ∈ u, pySpace c = true) ∧ (∀ c ∈ v, pySpace c = true) := by
  obtain ⟨t, ht, hta⟩ := rdropWhile_decomp pySpace (l.dropWhile pySpace)
  refine ⟨l.takeWhile pySpace, pyStrip l, t, ?_, rfl,
    fun c hc => List.mem_takeWhile_imp hc, hta⟩
  conv_lhs => rw [← List.takeWhile_append_dropWhile pySpace l, ht]
  rw [List.append_assoc]
  rfl

theorem occTail2_transfer (L : List (List Char)) :
    ∀ ρ σ : List Char, (∀ c ∈ σ, pySpace c = true) →
      OccTail2 (ρ ++ nlJoin (L.map pyStrip)) →
      OccTail2 (ρ ++ (σ ++ nlJoin L)) := by
  induction L with
  | nil =>
    rintro ρ σ hσ ⟨w₂, y, heq, hw₂⟩
    refine ⟨w₂, y ++ σ, ?_, hw₂⟩
    rw [show nlJoin ([] : List (List Char)) = [] from rfl, List.append_nil]
    rw [show nlJoin (List.map pyStrip []) = [] from rfl,
      List.append_nil] at heq
    rw [heq]
    simp [List.append_assoc]
  | cons l L' ih =>
    rintro ρ σ hσ ⟨w₂, y, heq, hw₂⟩
    rw [List.map_cons, nlJoin_cons] at heq
    have heq' : w₂ ++ (['社', '群', '提', '供'] ++ y)
        = ρ ++ ('\n' :: (pyStrip l ++ nlJoin (L'.map pyStrip))) := by
      rw [← List.append_assoc, ← heq]
    rcases List.append_eq_append_iff.mp heq' with ⟨a', hρ, ha'⟩ | ⟨c', hw, hc'⟩
    · rcases List.append_eq_append_iff.mp ha' with ⟨a2, ha2, hy⟩ | ⟨c2, hlit, hc2⟩
      · refine ⟨w₂, a2 ++ (σ ++ nlJoin (l :: L')), ?_, hw₂⟩
        rw [hρ, ha2]
        simp [List.append_assoc]
      · cases c2 with
        | nil =>
          rw [List.append_nil] at hlit
          refine ⟨w₂, σ ++ nlJoin (l :: L'), ?_, hw₂⟩
          rw [hρ, ← hlit]
        | cons e c2' =>
          exfalso
          simp only [List.cons_append, List.cons.injEq] at hc2
          have : '\n' ∈ (['社', '群', '提', '供'] : List Char) := by
            rw [hlit, hc2.1]
            exact List.mem_append_right a' (List.mem_cons_self _ _)
          exact absurd this (by decide)
    · have hρws : ∀ c ∈ ρ, pySpace c = true := fun c hc =>
        hw₂ c (by rw [hw]; exact List.mem_append_left _ hc)
      cases c' with
      | nil =>
        exfalso
        simp only [List.nil_append] at hc'
        cases hc'
      | cons e c'' =>
        simp only [List.cons_append, List.cons.injEq] at hc'
        obtain ⟨he, hT⟩ := hc'
        have hc''ws : ∀ c ∈ c'', pySpace c = true := by
          intro c hc
          refine hw₂ c ?_
          rw [hw]
          exact List.mem_append_right _ (List.mem_cons_of_mem _ hc)
        obtain ⟨u, s, v, hl, hs, hu, hv⟩ := pyStrip_decomp l
        have hT2 : OccTail2 (pyStrip l ++ nlJoin (L'.map pyStrip)) :=
          ⟨c'', y, by rw [hT]; simp, hc''ws⟩
        obtain ⟨w', y', heq2, hw'⟩ := ih (pyStrip l) v hv hT2
        refine ⟨ρ ++ σ ++ '\n' :: (u ++ w'), y', ?_, ?_⟩
        · rw [nlJoin_cons, hl]
          rw [show (u ++ s ++ v) ++ nlJoin L' = u ++ (s ++ (v ++ nlJoin L'))
            by simp [List.append_assoc]]
          rw [hs, heq2]
          simp [List.append_assoc]
        · intro c hc
          simp only [List.mem_append, List.mem_cons] at hc
          rcases hc with (hc | hc) | hc | hc | hc
          · exact hρws c hc
          · exact hσ c hc
          · rw [hc]; decide
          · exact hu c hc
          · exact hw' c hc

theorem occTail1_transfer (L : List (List Char)) :
    ∀ ρ σ : List Char, (∀ c ∈ σ, pySpace c = true) →
      OccTail1 (ρ ++ nlJoin (L.map pyStrip)) →
      OccTail1 (ρ ++ (σ ++ nlJoin L)) := by
  induction L with
  | nil =>
    rintro ρ σ hσ ⟨w₁, A, w₂, y, heq, hw₁, hw₂, hmap⟩
    refine ⟨w₁, A, w₂, y ++ σ, ?_, hw₁, hw₂, hmap⟩
    rw [show nlJoin (List.map pyStrip []) = [] from rfl,
      List.append_nil] at heq
    rw [show nlJoin ([] : List (List Char)) = [] from rfl, List.append_nil,
      heq]
    simp [List.append_assoc]
  | cons l L' ih =>
    rintro ρ σ hσ ⟨w₁, A, w₂, y, heq, hw₁, hw₂, hmap⟩
    rw [List.map_cons, nlJoin_cons] at heq
    have heq' : w₁ ++ (A ++ (w₂ ++ (['社', '群', '提', '供'] ++ y)))
        = ρ ++ ('\n' :: (pyStrip l ++ nlJoin (L'.map pyStrip))) := by
      rw [← List.append_assoc, ← List.append_assoc, ← List.append_assoc,
        ← heq]
    rcases List.append_eq_append_iff.mp heq' with ⟨a', hρ, ha'⟩ | ⟨c', hw, hc'⟩
    · rcases List.append_eq_append_iff.mp ha' with ⟨b, hab, hrest⟩ |
        ⟨d, hAd, hJd⟩
      · have hO2 : OccTail2 (b ++ nlJoin ((l :: L').map pyStrip)) :=
          ⟨w₂, y, by rw [List.map_cons, nlJoin_cons, ← hrest,
            ← List.append_assoc], hw₂⟩
        obtain ⟨w₂'', y'', hdec, hw₂''⟩ :=
          occTail2_transfer (l :: L') b σ hσ hO2
        refine ⟨w₁, A, w₂'', y'', ?_, hw₁, hw₂'', hmap⟩
        rw [hρ, hab]
        rw [show (w₁ ++ (A ++ b)) ++ (σ ++ nlJoin (l :: L'))
            = w₁ ++ (A ++ (b ++ (σ ++ nlJoin (l :: L'))))
          by simp [List.append_assoc]]
        rw [hdec]
        simp [List.append_assoc]
      · cases d with
        | nil =>
          rw [List.append_nil] at hAd
          simp only [List.nil_append] at hJd
          have hO2 : OccTail2 (([] : List Char) ++
              nlJoin ((l :: L').map pyStrip)) :=
            ⟨w₂, y, by rw [List.nil_append, List.map_cons, nlJoin_cons,
              hJd, ← List.append_assoc], hw₂⟩
          obtain ⟨w₂'', y'', hdec, hw₂''⟩ :=
            occTail2_transfer (l :: L') [] σ hσ hO2
          rw [List.nil_append] at hdec
          refine ⟨w₁, A, w₂'', y'', ?_, hw₁, hw₂'', hmap⟩
          rw [hρ, ← hAd]
          rw [show (w₁ ++ A) ++ (σ ++ nlJoin (l :: L'))
              = w₁ ++ (A ++ (σ ++ nlJoin (l :: L')))
            by simp [List.append_assoc]]
          rw [hdec]
          simp [List.append_assoc]
        | cons e d' =>
          exfalso
          simp only [List.cons_append, List.cons.injEq] at hJd
          have hmem : '\n' ∈ A := by
            rw [hAd, ← hJd.1]
            exact List.mem_append_right a' (List.mem_cons_self _ _)
          have : asciiLower '\n' ∈ List.map asciiLower A :=
            List.mem_map_of_mem _ hmem
          rw [hmap, show asciiLower '\n' = '\n' from by decide] at this
          exact absurd this (by decide)
    · have hρws : ∀ c ∈ ρ, pySpace c = true := fun c hc =>
        hw₁ c (by rw [hw]; exact List.mem_append_left _ hc)
      cases c' with
      | nil =>
        exfalso
        simp only [List.nil_append] at hc'
        have hA : A ≠ [] := by
          intro h
          rw [h] at hmap
          cases hmap
        obtain ⟨a₀, A₂, rfl⟩ := List.exists_cons_of_ne_nil hA
        simp only [List.cons_append, List.cons.injEq] at hc'
        have ha₀ : asciiLower a₀ = 'a' := by
          have h' := hmap
          simp only [List.map_cons, List.cons.injEq] at h'
          exact h'.1
        rw [← hc'.1] at ha₀
        exact absurd ha₀ (by decide)
      | cons e c'' =>
        simp only [List.cons_append, List.cons.injEq] at hc'
        obtain ⟨he, hT⟩ := hc'
        have hc''ws : ∀ c ∈ c'', pySpace c = true := by
          intro c hc
          refine hw₁ c ?_
          rw [hw]
          exact List.mem_append_right _ (List.mem_cons_of_mem _ hc)
        obtain ⟨u, s, v, hl, hs, hu, hv⟩ := pyStrip_decomp l
        have hT1 : OccTail1 (pyStrip l ++ nlJoin (L'.map pyStrip)) :=
          ⟨c'', A, w₂, y, by rw [hT]; simp, hc''ws, hw₂, hmap⟩
        obtain ⟨w₁', A', w₂', y', heq2, hw₁', hw₂', hmap'⟩ :=
          ih (pyStrip l) v hv hT1
        refine ⟨ρ ++ σ ++ '\n' :: (u ++ w₁'), A', w₂', y', ?_, ?_, hw₂', hmap'⟩
        · rw [nlJoin_cons, hl]
          rw [show (u ++ s ++ v) ++ nlJoin L' = u ++ (s ++ (v ++ nlJoin L'))
            by simp [List.append_assoc]]
          rw [hs, heq2]
          simp [List.append_assoc]
        · intro c hc
          simp only [List.mem_append, List.mem_cons] at hc
          rcases hc with (hc | hc) | hc | hc | hc
          · exact hρws c hc
          · exact hσ c hc
          · rw [hc]; decide
          · exact hu c hc
          · exact hw₁' c hc

theorem occ1_prepend {s : List Char} (w : List Char) (h : Occ1 s) :
    Occ1 (w ++ s) := by
  obtain ⟨x, w₁, A, w₂, y, heq, hw₁, hw₂, hmap⟩ := h
  exact ⟨w ++ x, w₁, A, w₂, y, by rw [heq]; simp [List.append_assoc],
    hw₁, hw₂, hmap⟩

theorem occ1_transfer (L : List (List Char))
    (h : Occ1 (['\n'].intercalate (L.map pyStrip))) :
    Occ1 (['\n'].intercalate L) := by
  induction L with
  | nil =>
    exfalso
    obtain ⟨x, w₁, A, w₂, y, heq, -, -, -⟩ := h
    rw [show ['\n'].intercalate (List.map pyStrip []) = [] from rfl] at heq
    have : ('字' : Char) ∈ ([] : List Char) := by
      rw [heq]
      simp
    cases this
  | cons l L' ih =>
    rw [List.map_cons, intercalate_eq_cons] at h
    obtain ⟨x, w₁, A, w₂, y, heq, hw₁, hw₂, hmap⟩ := h
    have heq' : x ++ (['字', '幕', '由'] ++ (w₁ ++ (A ++ (w₂ ++
        (['社', '群', '提', '供'] ++ y)))))
        = pyStrip l ++ nlJoin (L'.map pyStrip) := by
      rw [← List.append_assoc, ← List.append_assoc, ← List.append_assoc,
        ← List.append_assoc, ← List.append_assoc, ← heq]
    rcases List.append_eq_append_iff.mp heq' with ⟨a', hsl, ha'⟩ | ⟨c', hx, hc'⟩
    · rcases List.append_eq_append_iff.mp ha' with ⟨b, hab, hrest⟩ |
        ⟨d, hld, hJd⟩
      · obtain ⟨u, s, v, hl, hs, hu, hv⟩ := pyStrip_decomp l
        have hO1 : OccTail1 (b ++ nlJoin (L'.map pyStrip)) :=
          ⟨w₁, A, w₂, y, by rw [← hrest]; simp [List.append_assoc],
            hw₁, hw₂, hmap⟩
        obtain ⟨w₁', A', w₂', y', hdec, hw₁', hw₂', hmap'⟩ :=
          occTail1_transfer L' b v hv hO1
        refine ⟨u ++ x, w₁', A', w₂', y', ?_, hw₁', hw₂', hmap'⟩
        rw [intercalate_eq_cons, hl, hs, hsl, hab]
        rw [show (u ++ (x ++ (['字', '幕', '由'] ++ b)) ++ v) ++ nlJoin L'
            = u ++ (x ++ (['字', '幕', '由'] ++ (b ++ (v ++ nlJoin L'))))
          by simp [List.append_assoc]]
        rw [hdec]
        simp [List.append_assoc]
      · cases d with
        | nil =>
          rw [List.append_nil] at hld
          obtain ⟨u, s, v, hl, hs, hu, hv⟩ := pyStrip_decomp l
          have hO1 : OccTail1 (([] : List Char) ++
              nlJoin (L'.map pyStrip)) := by
            refine ⟨w₁, A, w₂, y, ?_, hw₁, hw₂, hmap⟩
            rw [List.nil_append, hJd]
            simp [List.append_assoc]
          obtain ⟨w₁', A', w₂', y', hdec, hw₁', hw₂', hmap'⟩ :=
            occTail1_transfer L' [] v hv hO1
          rw [List.nil_append] at hdec
          refine ⟨u ++ x, w₁', A', w₂', y', ?_, hw₁', hw₂', hmap'⟩
          rw [intercalate_eq_cons, hl, hs, hsl, ← hld]
          rw [show (u ++ (x ++ ['字', '幕', '由']) ++ v) ++ nlJoin L'
              = u ++ (x ++ (['字', '幕', '由'] ++ (v ++ nlJoin L')))
            by simp [List.append_assoc]]
          rw [hdec]
          simp [List.append_assoc]
        | cons e d' =>
          exfalso
          cases L' with
          | nil =>
            rw [show nlJoin (List.map pyStrip []) = [] from rfl] at hJd
            cases hJd
          | cons l₂ L'' =>
            rw [List.map_cons, nlJoin_cons] at hJd
            simp only [List.cons_append, List.cons.injEq] at hJd
            have : '\n' ∈ (['字', '幕', '由'] : List Char) := by
              rw [hld, ← hJd.1]
              exact List.mem_append_right a' (List.mem_cons_self _ _)
            exact absurd this (by decide)
    · cases L' with
      | nil =>
        exfalso
        rw [show nlJoin (List.map pyStrip []) = [] from rfl] at hc'
        have h1 := List.append_eq_nil.mp hc'.symm
        have h2 := List.append_eq_nil.mp h1.2
        exact absurd h2.1 (by decide)
      | cons l₂ L'' =>
        rw [List.map_cons, nlJoin_cons] at hc'
        cases c' with
        | nil =>
          exfalso
          simp only [List.nil_append, List.cons_append, List.cons.injEq] at hc'
          exact absurd hc'.1 (by decide)
        | cons e c'' =>
          simp only [List.cons_append, List.cons.injEq] at hc'
          obtain ⟨he, hT⟩ := hc'
          have hOc : Occ1 (['\n'].intercalate ((l₂ :: L'').map pyStrip)) := by
            rw [List.map_cons, intercalate_eq_cons]
            exact ⟨c'', w₁, A, w₂, y, by rw [hT]; simp [List.append_assoc],
              hw₁, hw₂, hmap⟩
          obtain ⟨x₂, w₁', A', w₂', y', heq₂, hw₁', hw₂', hmap'⟩ := ih hOc
          refine ⟨l ++ '\n' :: x₂, w₁', A', w₂', y', ?_, hw₁', hw₂', hmap'⟩
          rw [intercalate_cons_cons, heq₂]
          simp [List.append_assoc]

/-! ### Whitespace-stripping commutes with reversal; lines of a reversal -/

theorem dropWhile_append_of_ne_nil {p : Char → Bool} {x : List Char}
    (h : x.dropWhile p ≠ []) (z : List Char) :
    (x ++ z).dropWhile p = x.dropWhile p ++ z := by
  induction x with
  | nil => exact absurd rfl h
  | cons c cs ih =>
    by_cases hc : p c
    · rw [List.dropWhile_cons, if_pos hc] at h
      rw [List.cons_append, List.dropWhile_cons, if_pos hc,
        List.dropWhile_cons, if_pos hc]
      exact ih h
    · rw [List.cons_append, List.dropWhile_cons, if_neg hc,
        List.dropWhile_cons, if_neg hc]
      rfl

theorem rdropWhile_append_of_ne_nil {p : Char → Bool} {b : List Char}
    (h : b.rdropWhile p ≠ []) (a : List Char) :
    (a ++ b).rdropWhile p = a ++ b.rdropWhile p := by
  have hb : b.reverse.dropWhile p ≠ [] := by
    intro hc
    exact h (by rw [List.rdropWhile, hc]; rfl)
  rw [List.rdropWhile, List.reverse_append, dropWhile_append_of_ne_nil hb,
    List.reverse_append, List.reverse_reverse, List.rdropWhile]

theorem dropWhile_rdropWhile_comm (p : Char → Bool) (x : List Char) :
    (x.rdropWhile p).dropWhile p = (x.dropWhile p).rdropWhile p := by
  cases hdx : x.dropWhile p with
  | nil =>
    have hall : ∀ c ∈ x, p c = true := List.dropWhile_eq_nil_iff.mp hdx
    rw [List.rdropWhile_eq_nil_iff.mpr hall]
    rfl
  | cons h tl =>
    have hh : ¬ p h = true := head_dW_not p x h (by rw [hdx]; rfl)
    have hx : x = x.takeWhile p ++ (h :: tl) := by
      rw [← hdx, List.takeWhile_append_dropWhile]
    have hne : (h :: tl).rdropWhile p ≠ [] := by
      intro hcontra
      exact hh (List.rdropWhile_eq_nil_iff.mp hcontra h (List.mem_cons_self _ _))
    obtain ⟨rh, hrh⟩ : ∃ r, (h :: tl).rdropWhile p = h :: r := by
      obtain ⟨s, hs⟩ := List.rdropWhile_prefix p (h :: tl)
      cases hrd : (h :: tl).rdropWhile p with
      | nil => exact absurd hrd hne
      | cons a r =>
        rw [hrd] at hs
        simp only [List.cons_append, List.cons.injEq] at hs
        exact ⟨r, by rw [hs.1]⟩
    have hrd_app : x.rdropWhile p = x.takeWhile p ++ (h :: tl).rdropWhile p := by
      conv_lhs => rw [hx]
      exact rdropWhile_append_of_ne_nil hne _
    rw [hrd_app, hrh,
      dropWhile_all_append (fun c hc => List.mem_takeWhile_imp hc),
      List.dropWhile_cons, if_neg hh]

theorem pyStrip_reverse (x : List Char) :
    pyStrip x.reverse = (pyStrip x).reverse := by
  have h1 : x.reverse.dropWhile pySpace = (x.rdropWhile pySpace).reverse := by
    rw [List.rdropWhile, List.reverse_reverse]
  rw [pyStrip, h1, List.rdropWhile, List.reverse_reverse,
    dropWhile_rdropWhile_comm, pyStrip, List.rdropWhile]

theorem intercalate_concat (z : List Char) (K : List (List Char))
    (hK : K ≠ []) :
    ['\n'].intercalate (K ++ [z]) = ['\n'].intercalate K ++ '\n' :: z := by
  induction K with
  | nil => exact absurd rfl hK
  | cons m ms ih =>
    cases ms with
    | nil =>
      rw [List.cons_append, List.nil_append, intercalate_cons_cons,
        intercalate_single, intercalate_single]
    | cons m₂ ms' =>
      rw [show (m :: m₂ :: ms') ++ [z] = m :: m₂ :: (ms' ++ [z]) from rfl,
        intercalate_cons_cons,
        show m₂ :: (ms' ++ [z]) = (m₂ :: ms') ++ [z] from rfl,
        ih (List.cons_ne_nil m₂ ms'), intercalate_cons_cons]
      simp

theorem reverse_intercalate (K : List (List Char)) :
    (['\n'].intercalate K).reverse
      = ['\n'].intercalate ((K.map List.reverse).reverse) := by
  induction K with
  | nil => simp [intercalate_nil]
  | cons m ms ih =>
    cases ms with
    | nil => simp [intercalate_single]
    | cons m₂ ms' =>
      rw [intercalate_cons_cons, List.reverse_append]
      rw [show ('\n' :: ['\n'].intercalate (m₂ :: ms')).reverse
          = (['\n'].intercalate (m₂ :: ms')).reverse ++ ['\n'] from by simp]
      rw [ih]
      rw [show ((m :: m₂ :: ms').map List.reverse).reverse
          = ((m₂ :: ms').map List.reverse).reverse ++ [m.reverse] from by simp]
      rw [intercalate_concat _ _ (by simp)]
      simp [List.append_assoc]

theorem splitOn_reverse (x : List Char) :
    x.reverse.splitOn '\n'
      = ((x.splitOn '\n').map List.reverse).reverse := by
  conv_lhs => rw [← List.intercalate_splitOn x '\n', reverse_intercalate]
  refine List.splitOn_intercalate _ '\n' ?_ (by simp [splitOn_ne_nil x])
  intro l hl
  rw [List.mem_reverse] at hl
  obtain ⟨m, hm, rfl⟩ := List.mem_map.mp hl
  intro hmem
  exact mem_splitOn_not_mem x m hm (List.mem_reverse.mp hmem)

theorem pyStrip_cons_ws {c : Char} (h : pySpace c = true) (l : List Char) :
    pyStrip (c :: l) = pyStrip l := by
  rw [pyStrip, List.dropWhile_cons, if_pos h, pyStrip]

theorem chain_lines_dropWhile (S : List Char → List Char → Prop)
    (x : List Char)
    (h : List.Chain' (fun a b => S (pyStrip a) (pyStrip b)) (x.splitOn '\n')) :
    List.Chain' (fun a b => S (pyStrip a) (pyStrip b))
      ((x.dropWhile pySpace).splitOn '\n') := by
  induction x with
  | nil => exact h
  | cons c cs ih =>
    by_cases hws : pySpace c = true
    · rw [List.dropWhile_cons, if_pos hws]
      apply ih
      by_cases hnl : c = '\n'
      · have hsp : (c :: cs).splitOn '\n' = [] :: cs.splitOn '\n' := by
          subst hnl
          rw [List.splitOn, List.splitOnP_cons, if_pos (by simp)]
          rfl
        rw [hsp] at h
        exact h.tail
      · obtain ⟨h₀, t₀, hsp⟩ : ∃ h₀ t₀, cs.splitOn '\n' = h₀ :: t₀ := by
          cases hx : cs.splitOn '\n' with
          | nil => exact absurd hx (splitOn_ne_nil cs)
          | cons a b => exact ⟨a, b, rfl⟩
        have hsp2 : (c :: cs).splitOn '\n' = (c :: h₀) :: t₀ := by
          rw [List.splitOn, List.splitOnP_cons, if_neg (by simp [hnl]),
            show cs.splitOnP (fun x => x == '\n') = h₀ :: t₀ from hsp]
          rfl
        rw [hsp2] at h
        rw [hsp]
        rw [List.chain'_cons'] at h ⊢
        refine ⟨?_, h.2⟩
        intro y hy
        have hc := h.1 y hy
        rwa [pyStrip_cons_ws hws] at hc
    · rwa [List.dropWhile_cons, if_neg hws]

theorem chain_lines_strip (t : List Char)
    (h : List.Chain' (fun a b =>
        isDuplicateLine (pyStrip b) (pyStrip a) (9/10) = false)
      (t.splitOn '\n')) :
    List.Chain' (fun a b =>
        isDuplicateLine (pyStrip b) (pyStrip a) (9/10) = false)
      ((pyStrip t).splitOn '\n') := by
  have h1 := chain_lines_dropWhile
    (fun p q => isDuplicateLine q p (9/10) = false) t h
  have hh : List.Chain' (fun a b =>
      isDuplicateLine (pyStrip a).reverse (pyStrip b).reverse (9/10) = false)
      ((t.dropWhile pySpace).reverse.splitOn '\n') := by
    rw [splitOn_reverse, List.chain'_reverse, List.chain'_map]
    refine h1.imp ?_
    intro a b hab
    show isDuplicateLine (pyStrip b.reverse).reverse
      (pyStrip a.reverse).reverse (9/10) = false
    rwa [pyStrip_reverse, pyStrip_reverse, List.reverse_reverse,
      List.reverse_reverse]
  have h3 := chain_lines_dropWhile
    (fun p q => isDuplicateLine p.reverse q.reverse (9/10) = false)
    (t.dropWhile pySpace).reverse hh
  have e1 : pyStrip t
      = ((t.dropWhile pySpace).reverse.dropWhile pySpace).reverse := by
    rw [pyStrip, List.rdropWhile]
  rw [e1, splitOn_reverse, List.chain'_reverse, List.chain'_map]
  refine h3.imp ?_
  intro a b hab
  show isDuplicateLine (pyStrip a.reverse) (pyStrip b.reverse) (9/10) = false
  rwa [pyStrip_reverse, pyStrip_reverse]

/-- On a line list whose adjacent stripped lines are never near
duplicates, the `_remove_consecutive_duplicates` loop keeps every line,
stripped. -/
theorem rcdGo_eq_map : ∀ (N : List (List Char)) (prev : Option (List Char)),
    List.Chain' (fun a b =>
      isDuplicateLine (pyStrip b) (pyStrip a) (9/10) = false) N →
    (∀ pl, prev = some pl →
      ∀ h ∈ N.head?, isDuplicateLine (pyStrip h) pl (9/10) = false) →
    rcdGo prev N = N.map pyStrip := by
  intro N
  induction N with
  | nil =>
    intro prev _ _
    rfl
  | cons l ls ih =>
    intro prev hchain hprev
    rw [List.chain'_cons'] at hchain
    obtain ⟨hhead, htail⟩ := hchain
    by_cases hb : pyStrip l = []
    · have hpne : prev ≠ some [] := by
        intro hp
        have hdup := hprev [] hp l (by simp)
        rw [hb, isDuplicateLine, if_pos rfl] at hdup
        simp at hdup
      have hrest : rcdGo (some []) ls = ls.map pyStrip := by
        apply ih (some []) htail
        intro pl' hpl' h hh
        obtain rfl : pl' = [] := (Option.some.inj hpl').symm
        have hc := hhead h hh
        rwa [hb] at hc
      cases prev with
      | none =>
        rw [rcdGo_nil_blank_keep _ hb, List.map_cons, hb, hrest]
      | some pl =>
        have hplne : pl ≠ [] := fun hc => hpne (by rw [hc])
        rw [rcdGo_blank_keep _ hb hplne, List.map_cons, hb, hrest]
    · have hrest : rcdGo (some (pyStrip l)) ls = ls.map pyStrip := by
        apply ih (some (pyStrip l)) htail
        intro pl' hpl' h hh
        obtain rfl : pl' = pyStrip l := (Option.some.inj hpl').symm
        exact hhead h hh
      cases prev with
      | none =>
        rw [rcdGo_none_keep _ hb, List.map_cons, hrest]
      | some pl =>
        have hdup : isDuplicateLine (pyStrip l) pl (9/10) = false :=
          hprev pl rfl l (by simp)
        rw [rcdGo_some_keep _ hb hdup, List.map_cons, hrest]

theorem reSub_eq_self_of_no_match {p : List PElem} {t : List Char}
    (h : hasMatchB p t = false) : reSub p t = t := by
  induction t with
  | nil => rfl
  | cons c cs ih =>
    rw [hasMatchB, Bool.or_eq_false_iff] at h
    obtain ⟨h1, h2⟩ := h
    have hnone : matchAt p (c :: cs) = none := by
      cases hm : matchAt p (c :: cs) with
      | none => rfl
      | some r => rw [hm] at h1; cases h1
    rw [reSub_cons_none hnone, ih h2]

theorem foldl_reSub_eq_self {ps : List (List PElem)} {t : List Char}
    (h : ∀ p ∈ ps, hasMatchB p t = false) :
    ps.foldl (fun acc p => reSub p acc) t = t := by
  induction ps with
  | nil => rfl
  | cons p ps' ih =>
    rw [List.foldl_cons,
      reSub_eq_self_of_no_match (h p (List.mem_cons_self _ _))]
    exact ih fun q hq => h q (List.mem_cons_of_mem _ hq)

/-- The whole-document no-boilerplate condition of C7, decidable. -/
def noBoilerplateB (t : List Char) : Bool :=
  boilerPatterns.all fun p => !(hasMatchB p t)

theorem cleanSubtitleMarkers_eq_strip {t : List Char}
    (h : noBoilerplateB t = true) : cleanSubtitleMarkers t = pyStrip t := by
  rw [cleanSubtitleMarkers, foldl_reSub_eq_self]
  intro p hp
  have := (List.all_eq_true.mp h) p hp
  simpa using this

theorem not_SubSeg_nl3_intercalate :
    ∀ M : List (List Char), (∀ m ∈ M, '\n' ∉ m) →
      List.Chain' (fun a b => ¬(a = [] ∧ b = [])) M →
      ¬ SubSeg ['\n', '\n', '\n'] (['\n'].intercalate M) := by
  intro M
  induction M with
  | nil =>
    rintro - - ⟨u, v, huv⟩
    rw [intercalate_nil] at huv
    have h1 := List.append_eq_nil.mp huv.symm
    have h2 := List.append_eq_nil.mp h1.1
    cases h2.2
  | cons m ms ih =>
    intro hnl hch h
    cases ms with
    | nil =>
      rw [intercalate_single] at h
      obtain ⟨u, v, huv⟩ := h
      exact hnl m (List.mem_cons_self _ _)
        (huv ▸ List.mem_append_left _
          (List.mem_append_right u (List.mem_cons_self _ _)))
    | cons m₂ ms' =>
      rw [intercalate_cons_cons] at h
      have h' := SubSeg_nlpat_right
        (show (['\n', '\n', '\n'] : List Char).head? = some '\n' from rfl)
        (hnl m (List.mem_cons_self _ _)) h
      obtain ⟨u, v, huv⟩ := h'
      cases u with
      | nil =>
        simp only [List.nil_append, List.cons_append, List.cons.injEq] at huv
        obtain ⟨-, huv⟩ := huv
        cases m₂ with
        | cons c m₂' =>
          rw [intercalate_eq_cons, List.cons_append] at huv
          simp only [List.cons.injEq] at huv
          exact hnl (c :: m₂') (by simp) (huv.1 ▸ List.mem_cons_self _ _)
        | nil =>
          cases ms' with
          | nil =>
            rw [intercalate_single] at huv
            cases huv
          | cons m₃ ms'' =>
            rw [intercalate_cons_cons, List.nil_append] at huv
            simp only [List.cons.injEq] at huv
            obtain ⟨-, huv⟩ := huv
            cases m₃ with
            | cons c m₃' =>
              rw [intercalate_eq_cons, List.cons_append] at huv
              simp only [List.cons.injEq] at huv
              exact hnl (c :: m₃') (by simp) (huv.1 ▸ List.mem_cons_self _ _)
            | nil =>
              have h2 : List.Chain' (fun a b => ¬(a = [] ∧ b = []))
                  ([] :: [] :: ms'') := hch.tail
              rw [List.chain'_cons'] at h2
              exact h2.1 [] rfl ⟨rfl, rfl⟩
      | cons e u' =>
        simp only [List.cons_append, List.cons.injEq] at huv
        refine ih (fun x hx => hnl x (List.mem_cons_of_mem _ hx)) hch.tail
          ⟨u', v, ?_⟩
        rw [huv.2]

theorem occ1_infix {s : List Char} (a b : List Char) (h : Occ1 s) :
    Occ1 (a ++ s ++ b) := by
  obtain ⟨x, w₁, A, w₂, y, heq, hw₁, hw₂, hmap⟩ := h
  exact ⟨a ++ x, w₁, A, w₂, y ++ b, by rw [heq]; simp [List.append_assoc],
    hw₁, hw₂, hmap⟩

theorem singleLine_strip_lines {p : List PElem}
    (hp : p ∈ boilerPatterns.drop 1) (K : List (List Char))
    (h : hasMatchB p (['\n'].intercalate (K.map pyStrip)) = true) :
    hasMatchB p (['\n'].intercalate K) = true := by
  obtain ⟨m', hm', hmatch⟩ := hasMatchB_singleLine_lines _ hp _ h
  obtain ⟨m, hm, rfl⟩ := List.mem_map.mp hm'
  obtain ⟨u, v, hmv⟩ := pyStrip_infix m
  have h2 : hasMatchB p m = true := by
    rw [hmv]
    exact hasMatchB_singleLine_mono _ hp u _ v hmatch
  obtain ⟨x, z, hxz⟩ := intercalate_mem_infix hm
  rw [hxz]
  exact hasMatchB_singleLine_mono _ hp x _ z h2

theorem boilerPatterns_cases {p : List PElem} (hp : p ∈ boilerPatterns) :
    p = [PElem.lit ['字', '幕', '由'], PElem.wsStar,
      PElem.litCI ['a', 'm', 'a', 'r', 'a', '.', 'o', 'r', 'g'],
      PElem.wsStar, PElem.lit ['社', '群', '提', '供']]
    ∨ p ∈ boilerPatterns.drop 1 := by
  have hsplit : boilerPatterns
      = [PElem.lit ['字', '幕', '由'], PElem.wsStar,
          PElem.litCI ['a', 'm', 'a', 'r', 'a', '.', 'o', 'r', 'g'],
          PElem.wsStar, PElem.lit ['社', '群', '提', '供']]
        :: boilerPatterns.drop 1 := rfl
  rw [hsplit] at hp
  exact List.mem_cons.mp hp

theorem hasMatchB_infix {p : List PElem} (hp : p ∈ boilerPatterns)
    {s : List Char} (a b : List Char) (h : hasMatchB p s = true) :
    hasMatchB p (a ++ s ++ b) = true := by
  rcases boilerPatterns_cases hp with rfl | hp'
  · rw [hasMatchB_pat1_iff] at h ⊢
    exact occ1_infix a b h
  · exact hasMatchB_singleLine_mono _ hp' a s b h

theorem hasMatchB_strip_lines {p : List PElem} (hp : p ∈ boilerPatterns)
    (K : List (List Char))
    (h : hasMatchB p (['\n'].intercalate (K.map pyStrip)) = true) :
    hasMatchB p (['\n'].intercalate K) = true := by
  rcases boilerPatterns_cases hp with rfl | hp'
  · rw [hasMatchB_pat1_iff] at h ⊢
    exact occ1_transfer K h
  · exact singleLine_strip_lines hp' K h

theorem dropWhile_ws_intercalate :
    ∀ M : List (List Char), (∀ m ∈ M, pyStrip m = m) →
      (['\n'].intercalate M).dropWhile pySpace
        = ['\n'].intercalate (M.dropWhile fun m => m.isEmpty) := by
  intro M
  induction M with
  | nil =>
    intro _
    rfl
  | cons m ms ih =>
    intro hst
    by_cases hm : m = []
    · subst hm
      rw [show List.dropWhile (fun m : List Char => m.isEmpty) ([] :: ms)
          = List.dropWhile (fun m : List Char => m.isEmpty) ms from by
        rw [List.dropWhile_cons]; simp]
      cases ms with
      | nil => rfl
      | cons m₂ ms' =>
        rw [intercalate_cons_cons, List.nil_append, List.dropWhile_cons,
          if_pos (by decide)]
        exact ih fun x hx => hst x (List.mem_cons_of_mem _ hx)
    · have hmst : pyStrip m = m := hst m (List.mem_cons_self _ _)
      have hdm : m.dropWhile pySpace = m := by
        have h := dropWhile_pyStrip m
        rwa [hmst] at h
      have hie : m.isEmpty = false := by
        cases m with
        | nil => exact absurd rfl hm
        | cons a l => rfl
      rw [show List.dropWhile (fun x : List Char => x.isEmpty) (m :: ms)
          = m :: ms from by rw [List.dropWhile_cons, hie]; simp]
      cases ms with
      | nil =>
        rw [intercalate_single]
        exact hdm
      | cons m₂ ms' =>
        rw [intercalate_cons_cons,
          dropWhile_append_of_ne_nil (by rw [hdm]; exact hm) _, hdm]

/-- Drop leading and trailing blank lines. -/
def trimBlanks (M : List (List Char)) : List (List Char) :=
  (((M.dropWhile fun m => m.isEmpty).reverse.dropWhile
    fun m => m.isEmpty)).reverse

theorem trimBlanks_subset {M : List (List Char)} {m : List Char}
    (h : m ∈ trimBlanks M) : m ∈ M := by
  rw [trimBlanks, List.mem_reverse] at h
  have h2 := (List.dropWhile_sublist _).subset h
  rw [List.mem_reverse] at h2
  exact (List.dropWhile_sublist _).subset h2

theorem map_pyStrip_id {L : List (List Char)}
    (h : ∀ m ∈ L, pyStrip m = m) : L.map pyStrip = L := by
  induction L with
  | nil => rfl
  | cons m ms ih =>
    rw [List.map_cons, h m (List.mem_cons_self _ _),
      ih fun x hx => h x (List.mem_cons_of_mem _ hx)]

theorem chain'_dropWhile {α : Type} {R : α → α → Prop} {p : α → Bool}
    {l : List α} (h : List.Chain' R l) : List.Chain' R (l.dropWhile p) := by
  have heq := List.takeWhile_append_dropWhile p l
  rw [← heq] at h
  exact (List.chain'_append.mp h).2.1

theorem chain'_trimBlanks {R : List Char → List Char → Prop}
    (hsymm : ∀ a b, R a b → R b a) {M : List (List Char)}
    (h : List.Chain' R M) : List.Chain' R (trimBlanks M) := by
  have h1 : List.Chain' R (M.dropWhile fun m => m.isEmpty) :=
    chain'_dropWhile h
  have h2 : List.Chain' R (M.dropWhile fun m => m.isEmpty).reverse := by
    rw [List.chain'_reverse]
    exact h1.imp fun a b hab => hsymm a b hab
  have h3 : List.Chain' R
      ((M.dropWhile fun m => m.isEmpty).reverse.dropWhile
        fun m => m.isEmpty) := chain'_dropWhile h2
  rw [trimBlanks, List.chain'_reverse]
  exact h3.imp fun a b hab => hsymm a b hab

theorem strip_intercalate (M : List (List Char))
    (hst : ∀ m ∈ M, pyStrip m = m) :
    pyStrip (['\n'].intercalate M) = ['\n'].intercalate (trimBlanks M) := by
  rw [pyStrip, dropWhile_ws_intercalate M hst, List.rdropWhile]
  have hst₁ : ∀ m ∈ M.dropWhile (fun m => m.isEmpty), pyStrip m = m :=
    fun m hm => hst m ((List.dropWhile_sublist _).subset hm)
  rw [reverse_intercalate, ← List.map_reverse]
  have hst₂ : ∀ m ∈ (M.dropWhile fun m => m.isEmpty).reverse.map
      List.reverse, pyStrip m = m := by
    intro m hm
    obtain ⟨x, hx, rfl⟩ := List.mem_map.mp hm
    rw [pyStrip_reverse, hst₁ x (List.mem_reverse.mp hx)]
  rw [dropWhile_ws_intercalate _ hst₂, List.dropWhile_map]
  rw [show ((fun m : List Char => m.isEmpty) ∘ List.reverse)
      = (fun x : List Char => x.isEmpty) from funext fun x => by
    cases x <;> simp]
  rw [reverse_intercalate, List.map_map]
  rw [show List.reverse ∘ List.reverse = @id (List Char) from
    funext fun x => List.reverse_reverse x]
  rw [List.map_id, trimBlanks]

/-- C7: on a document already in cleaned form — no boilerplate pattern
matches anywhere in the text, and no two adjacent lines are near
duplicates (compared as `_remove_consecutive_duplicates` does, on their
stripped forms at threshold `0.9`) — the save pipeline of
`save_transcript` (boilerplate cleaning, adjacent-duplicate removal,
blank-line collapse, final strip) is idempotent: applying it twice gives
the same text as applying it once. -/
theorem savePipeline_idempotent (t : List Char)
    (h1 : noBoilerplateB t = true)
    (h2 : List.Chain' (fun a b =>
        isDuplicateLine (pyStrip b) (pyStrip a) (9/10) = false)
      (t.splitOn '\n')) :
    savePipeline (savePipeline t) = savePipeline t := by
  have hclean : cleanSubtitleMarkers t = pyStrip t :=
    cleanSubtitleMarkers_eq_strip h1
  have hchainU := chain_lines_strip t h2
  have hrcdU : rcdGo none ((pyStrip t).splitOn '\n')
      = ((pyStrip t).splitOn '\n').map pyStrip :=
    rcdGo_eq_map _ none hchainU (fun pl hpl => Option.noConfusion hpl)
  have hMst : ∀ m ∈ ((pyStrip t).splitOn '\n').map pyStrip,
      pyStrip m = m := by
    intro m hm
    obtain ⟨x, hx, rfl⟩ := List.mem_map.mp hm
    exact pyStrip_idem x
  have hMnl : ∀ m ∈ ((pyStrip t).splitOn '\n').map pyStrip, '\n' ∉ m := by
    intro m hm
    obtain ⟨x, hx, rfl⟩ := List.mem_map.mp hm
    exact fun hc => mem_splitOn_not_mem _ x hx (pyStrip_mem hc)
  have hMblank : List.Chain' (fun a b => ¬(a = [] ∧ b = []))
      (((pyStrip t).splitOn '\n').map pyStrip) := by
    rw [List.chain'_map]
    refine hchainU.imp ?_
    rintro a b hab ⟨ha, hb⟩
    rw [ha, hb, isDuplicateLine, if_pos rfl] at hab
    simp at hab
  have hMcond : List.Chain' (fun a b =>
      isDuplicateLine (pyStrip b) (pyStrip a) (9/10) = false)
      (((pyStrip t).splitOn '\n').map pyStrip) := by
    rw [List.chain'_map]
    refine hchainU.imp ?_
    intro a b hab
    show isDuplicateLine (pyStrip (pyStrip b)) (pyStrip (pyStrip a))
      (9/10) = false
    rwa [pyStrip_idem, pyStrip_idem]
  have hrcd : removeConsecutiveDuplicates (pyStrip t)
      = ['\n'].intercalate (((pyStrip t).splitOn '\n').map pyStrip) := by
    rw [removeConsecutiveDuplicates, hrcdU]
  have hnoTriple : containsSeq ['\n', '\n', '\n']
      (['\n'].intercalate (((pyStrip t).splitOn '\n').map pyStrip))
      = false := by
    rw [Bool.eq_false_iff]
    intro hc
    exact not_SubSeg_nl3_intercalate _ hMnl hMblank
      ((containsSeq_iff _ _).mp hc)
  have hPt : savePipeline t
      = pyStrip (['\n'].intercalate
          (((pyStrip t).splitOn '\n').map pyStrip)) := by
    rw [savePipeline, hclean, hrcd, collapseNl3_eq_self hnoTriple]
  have hSIL : pyStrip (['\n'].intercalate
        (((pyStrip t).splitOn '\n').map pyStrip))
      = ['\n'].intercalate
          (trimBlanks (((pyStrip t).splitOn '\n').map pyStrip)) :=
    strip_intercalate _ hMst
  by_cases hTB : trimBlanks (((pyStrip t).splitOn '\n').map pyStrip) = []
  · rw [hPt, hSIL, hTB, intercalate_nil]
    rfl
  · have hTBnl : ∀ m ∈ trimBlanks (((pyStrip t).splitOn '\n').map pyStrip),
        '\n' ∉ m := fun m hm => hMnl m (trimBlanks_subset hm)
    have hTBst : ∀ m ∈ trimBlanks (((pyStrip t).splitOn '\n').map pyStrip),
        pyStrip m = m := fun m hm => hMst m (trimBlanks_subset hm)
    have hlines : (['\n'].intercalate
          (trimBlanks (((pyStrip t).splitOn '\n').map pyStrip))).splitOn '\n'
        = trimBlanks (((pyStrip t).splitOn '\n').map pyStrip) :=
      List.splitOn_intercalate _ '\n' hTBnl hTB
    have hTBchain : List.Chain' (fun a b =>
        isDuplicateLine (pyStrip b) (pyStrip a) (9/10) = false)
        (trimBlanks (((pyStrip t).splitOn '\n').map pyStrip)) :=
      chain'_trimBlanks
        (fun a b hab => by rwa [isDuplicateLine_symm] at hab) hMcond
    have heStrip : pyStrip (['\n'].intercalate
          (trimBlanks (((pyStrip t).splitOn '\n').map pyStrip)))
        = ['\n'].intercalate
            (trimBlanks (((pyStrip t).splitOn '\n').map pyStrip)) := by
      rw [← hSIL, pyStrip_idem, hSIL]
    have heNB : noBoilerplateB (['\n'].intercalate
          (trimBlanks (((pyStrip t).splitOn '\n').map pyStrip))) = true := by
      rw [noBoilerplateB, List.all_eq_true]
      intro p hp
      have ht : hasMatchB p t = false := by
        have := List.all_eq_true.mp h1 p hp
        simpa using this
      have hfalse : hasMatchB p (['\n'].intercalate
          (trimBlanks (((pyStrip t).splitOn '\n').map pyStrip))) = false := by
        cases hcase : hasMatchB p (['\n'].intercalate
            (trimBlanks (((pyStrip t).splitOn '\n').map pyStrip))) with
        | false => rfl
        | true =>
          exfalso
          have h3 : hasMatchB p (pyStrip (['\n'].intercalate
              (((pyStrip t).splitOn '\n').map pyStrip))) = true := by
            rw [hSIL]
            exact hcase
          obtain ⟨a, b, hab⟩ := pyStrip_infix
            (['\n'].intercalate (((pyStrip t).splitOn '\n').map pyStrip))
          have h4 : hasMatchB p (['\n'].intercalate
              (((pyStrip t).splitOn '\n').map pyStrip)) = true := by
            rw [hab]
            exact hasMatchB_infix hp a b h3
          have h5 := hasMatchB_strip_lines hp _ h4
          rw [List.intercalate_splitOn] at h5
          obtain ⟨a', b', hab'⟩ := pyStrip_infix t
          have h6 : hasMatchB p t = true := by
            rw [hab']
            exact hasMatchB_infix hp a' b' h5
          rw [ht] at h6
          cases h6
      rw [hfalse]
      rfl
    have hcleanE : cleanSubtitleMarkers (['\n'].intercalate
          (trimBlanks (((pyStrip t).splitOn '\n').map pyStrip)))
        = ['\n'].intercalate
            (trimBlanks (((pyStrip t).splitOn '\n').map pyStrip)) := by
      rw [cleanSubtitleMarkers_eq_strip heNB, heStrip]
    have hrcdE : removeConsecutiveDuplicates (['\n'].intercalate
          (trimBlanks (((pyStrip t).splitOn '\n').map pyStrip)))
        = ['\n'].intercalate
            (trimBlanks (((pyStrip t).splitOn '\n').map pyStrip)) := by
      rw [removeConsecutiveDuplicates, hlines,
        rcdGo_eq_map _ none hTBchain (fun pl hpl => Option.noConfusion hpl),
        map_pyStrip_id hTBst]
    have hnoTripleE : containsSeq ['\n', '\n', '\n']
        (['\n'].intercalate
          (trimBlanks (((pyStrip t).splitOn '\n').map pyStrip))) = false := by
      rw [← hSIL]
      obtain ⟨a, b, hab⟩ := pyStrip_infix
        (['\n'].intercalate (((pyStrip t).splitOn '\n').map pyStrip))
      rw [Bool.eq_false_iff]
      intro hc
      have hsub := SubSeg_embed ((containsSeq_iff _ _).mp hc) a b
      rw [← hab] at hsub
      exact absurd ((containsSeq_iff _ _).mpr hsub)
        (by rw [hnoTriple]; simp)
    rw [hPt, hSIL, savePipeline, hcleanE, hrcdE,
      collapseNl3_eq_self hnoTripleE, heStrip]

theorem savePipeline_idempotent_witness :
    noBoilerplateB ("大家好\n\n今天天氣".data) = true
    ∧ savePipeline (savePipeline ("大家好\n\n今天天氣".data))
        = savePipeline ("大家好\n\n今天天氣".data) := by
  refine ⟨by decide, savePipeline_idempotent _ (by decide) ?_⟩
  rw [show ("大家好\n\n今天天氣".data).splitOn '\n'
      = ["大家好".data, [], "今天天氣".data] from by decide]
  exact List.chain'_cons.mpr ⟨by decide,
    List.chain'_cons.mpr ⟨by decide, List.chain'_singleton _⟩⟩
